import Mathlib

/-!
Verification of the installation-order engine of
`src/spec-configuration/containerFeaturesOrder.ts`.

The TypeScript source is shallowly embedded: pure functions become Lean
functions, in-place mutation becomes explicit state passing, JavaScript
exceptions become `Except String`, and the two remote collaborators
(`getRef`, `fetchOCIFeatureManifestIfExistsFromUserIdentifier`) become
function-valued parameters.  Worklist loops whose termination depends on
the (possibly adversarial) fetch oracle are written with an explicit fuel
argument; loops whose termination is provable get their fuel discharged by
an adequacy lemma so the exported definition is fuel-free.
-/

/-! ## JSON option values

`FNode.options` in the source (line 58) has type
`string | boolean | Record<string, string | boolean | undefined>` and the
values of a `dependsOn` annotation record (line 110) have type
`string | boolean | Record<string, string | boolean>`.  Neither type nests
records inside records, so a two-layer inductive suffices.  `JPrim.undef`
models a record field whose value is `undefined`; `JSON.stringify` drops
such fields. -/

inductive JPrim where
  | str (s : String)
  | bool (b : Bool)
  | undef
deriving DecidableEq, Repr

inductive JValue where
  | str (s : String)
  | bool (b : Bool)
  | record (fields : List (String × JPrim))
deriving DecidableEq, Repr

/-- Models the escaping `JSON.stringify` applies inside a JSON string
literal: double quotes and backslashes are escaped.  (Control-character
escapes are not modelled; no identifier or option value in scope contains
control characters.) -/
def escapeJsonString (s : String) : String :=
  String.join (s.toList.map fun c =>
    if c = '"' then "\\\"" else if c = '\\' then "\\\\" else String.singleton c)

/-- `JSON.stringify` of a record field value; `none` for `undefined`
(such a field is omitted from the serialized object). -/
def jsonStringifyPrim : JPrim → Option String
  | .str s => some ("\"" ++ escapeJsonString s ++ "\"")
  | .bool b => some (if b then "true" else "false")
  | .undef => none

/-- `JSON.stringify` of a defined option value.  Record fields are emitted
in insertion order, exactly as `JSON.stringify` does. -/
def jsonStringify : JValue → String
  | .str s => "\"" ++ escapeJsonString s ++ "\""
  | .bool b => if b then "true" else "false"
  | .record fields =>
      "\x7b" ++
        String.intercalate ","
          (fields.filterMap fun kv =>
            (jsonStringifyPrim kv.2).map
              (fun v => "\"" ++ escapeJsonString kv.1 ++ "\":" ++ v)) ++
      "\x7d"

/-- `JSON.stringify` applied to a possibly-`undefined` options value:
`JSON.stringify(undefined)` is `undefined`, modelled as `none`. -/
def jsonStringifyOpt : Option JValue → Option String :=
  Option.map jsonStringify

/-! ## The hard-dependency node type (source lines 55-60)

`FNode` is a recursive record: `id`, optional `options`, and the list of
child dependency nodes.  In the source the children are shared mutable
references; here they are immutable snapshots, which is adequate because
every observation the algorithms make of a child (`fNodeEquality`,
`fNodeStableSort`) reads only `id` and `options`. -/

inductive FNode where
  | mk (id : String) (options : Option JValue) (dependsOn : List FNode)

def FNode.id : FNode → String
  | .mk i _ _ => i

def FNode.options : FNode → Option JValue
  | .mk _ o _ => o

def FNode.dependsOn : FNode → List FNode
  | .mk _ _ d => d

instance : Inhabited FNode := ⟨.mk "" none []⟩

/-- Source lines 62-72: two nodes are equal when their ids coincide and
their options values serialize to the same JSON text (or are both
`undefined`). -/
def fNodeEquality (a b : FNode) : Bool :=
  if a.id != b.id then false
  else if jsonStringifyOpt a.options != jsonStringifyOpt b.options then false
  else true

/-- Lexicographic code-point comparison of character lists; `strLt` models
the JavaScript string `<` operator (and, for the plain ASCII identifiers
in scope, `localeCompare < 0`) as a structurally recursive Boolean. -/
def charListLt : List Char → List Char → Bool
  | [], [] => false
  | [], _ :: _ => true
  | _ :: _, [] => false
  | a :: as, b :: bs =>
      if a.toNat < b.toNat then true
      else if b.toNat < a.toNat then false
      else charListLt as bs

def strLt (a b : String) : Bool := charListLt a.toList b.toList

def strLe (a b : String) : Bool := !strLt b a

/-- Source lines 74-84 (`fNodeStableSort`) return a number whose sign
orders `a` relative to `b`; a comparison sort only consumes the sign, so
we embed the comparator as the Boolean relation
`fNodeStableSort a b ≤ 0`.  `localeCompare` is modelled as code-point
comparison, which agrees with it on the plain ASCII identifiers in scope.
If exactly one of the two serialized option values is `undefined`, the
source would throw a `TypeError` from `undefined.localeCompare`; the model
compares the text `"undefined"` instead (no claim exercises that case). -/
def fNodeSortLe (a b : FNode) : Bool :=
  if a.id != b.id then strLt a.id b.id
  else if jsonStringifyOpt a.options != jsonStringifyOpt b.options then
    strLt ((jsonStringifyOpt a.options).getD "undefined")
      ((jsonStringifyOpt b.options).getD "undefined")
  else true

/-- A stable comparison sort (insertion sort), modelling JavaScript
`Array.prototype.sort`, which the language specification requires to be
stable.  Structural recursion keeps concrete runs kernel-computable. -/
def insertBy {α : Type _} (le : α → α → Bool) (x : α) : List α → List α
  | [] => [x]
  | y :: ys => if le x y then x :: y :: ys else y :: insertBy le x ys

def sortBy {α : Type _} (le : α → α → Bool) : List α → List α
  | [] => []
  | x :: xs => insertBy le x (sortBy le xs)

theorem insertBy_perm {α : Type _} (le : α → α → Bool) (x : α) :
    ∀ l : List α, (insertBy le x l).Perm (x :: l) := by
  intro l
  induction l with
  | nil => rfl
  | cons y ys ih =>
      rw [insertBy]
      by_cases h : le x y
      · rw [if_pos h]
      · rw [if_neg h]
        exact (List.Perm.cons y ih).trans (List.Perm.swap x y ys)

theorem sortBy_perm {α : Type _} (le : α → α → Bool) :
    ∀ l : List α, (sortBy le l).Perm l := by
  intro l
  induction l with
  | nil => rfl
  | cons x xs ih =>
      rw [sortBy]
      exact (insertBy_perm le x (sortBy le xs)).trans (List.Perm.cons x ih)

theorem fNodeEquality_refl (a : FNode) : fNodeEquality a a = true := by
  simp [fNodeEquality]

theorem fNodeEquality_iff (a b : FNode) :
    fNodeEquality a b = true ↔
      a.id = b.id ∧ jsonStringifyOpt a.options = jsonStringifyOpt b.options := by
  simp only [fNodeEquality, bne_iff_ne, ne_eq, ite_not]
  constructor
  · intro h
    by_cases h1 : a.id = b.id <;>
      by_cases h2 : jsonStringifyOpt a.options = jsonStringifyOpt b.options <;>
      simp [h1, h2] at h ⊢
  · rintro ⟨h1, h2⟩
    simp [h1, h2]

/-! ## Component C: the round scheduler (source lines 172-201)

`computeDependsOnInstallationOrder` first builds the worklist from the
configuration (Component B) and then runs the round loop of lines
177-198.  We embed the round loop over an arbitrary worklist.  Each
successful round removes at least one node from the worklist, so fuel
`worklist.length` always suffices; the adequacy lemma below discharges the
fuel from the exported definition. -/

/-- One filter pass of line 179-182: the nodes whose dependencies are all
already installed (by `fNodeEquality`). -/
def readyRound (installationOrder worklist : List FNode) : List FNode :=
  worklist.filter fun node =>
    node.dependsOn.isEmpty ||
      node.dependsOn.all fun dep =>
        installationOrder.any fun installed => fNodeEquality installed dep

/-- The fuelled round loop of source lines 178-198.  `none` means the fuel
ran out (never happens for fuel ≥ `worklist.length`). -/
def computeDependsOnRounds :
    Nat → List FNode → List FNode → Option (Except String (List FNode))
  | _, [], installationOrder => some (.ok installationOrder)
  | 0, _ :: _, _ => none
  | fuel + 1, worklist@(_ :: _), installationOrder =>
      let round := readyRound installationOrder worklist
      if round.isEmpty then
        some (.error "Circular dependency detected")
      else
        computeDependsOnRounds fuel
          (worklist.filter fun node => !(round.any fun r => fNodeEquality r node))
          (installationOrder ++ sortBy fNodeSortLe round)

theorem readyRound_sublist (installed worklist : List FNode) :
    (readyRound installed worklist).Sublist worklist :=
  List.filter_sublist _

theorem computeDependsOnRounds_adequate :
    ∀ fuel worklist installed, worklist.length ≤ fuel →
      computeDependsOnRounds fuel worklist installed ≠ none := by
  intro fuel
  induction fuel with
  | zero =>
      intro worklist installed h
      match worklist with
      | [] => simp [computeDependsOnRounds]
      | _ :: _ => simp at h
  | succ n ih =>
      intro worklist installed h
      match worklist with
      | [] => simp [computeDependsOnRounds]
      | w :: ws =>
          simp only [computeDependsOnRounds]
          by_cases hr : (readyRound installed (w :: ws)).isEmpty
          · simp [hr]
          · simp only [hr, if_false]
            apply ih
            -- the filtered worklist is strictly shorter: the head of the
            -- round is dropped by the filter
            have hne : readyRound installed (w :: ws) ≠ [] := by
              intro hcontra; simp [hcontra] at hr
            obtain ⟨r, hrmem⟩ := List.exists_mem_of_ne_nil _ hne
            have hrw : r ∈ w :: ws :=
              (readyRound_sublist installed (w :: ws)).mem hrmem
            have hlt :
                ((w :: ws).filter fun node =>
                  !((readyRound installed (w :: ws)).any fun r =>
                    fNodeEquality r node)).length < (w :: ws).length := by
              apply List.length_filter_lt_length_iff_exists.mpr
              exact ⟨r, hrw, by simp [List.any_eq_true]
                                exact ⟨r, hrmem, fNodeEquality_refl r⟩⟩
            omega

/-- The round-scheduling loop of `computeDependsOnInstallationOrder`
(source lines 177-200), as a function of the worklist produced by
`buildDependencyGraphFromConfig`.  The fuel of the auxiliary definition is
discharged by `computeDependsOnRounds_adequate`. -/
def computeDependsOnInstallationOrder (worklist : List FNode) :
    Except String (List FNode) :=
  match h : computeDependsOnRounds worklist.length worklist [] with
  | some r => r
  | none =>
      absurd h (computeDependsOnRounds_adequate worklist.length worklist [] le_rfl)

/-! ## Component B: the hard-dependency graph builder (source lines 86-132)

`_buildDependencyGraph` discovers the dependency node set by fetching
remote manifests.  The two collaborators are parameters:

* `getRef` models `getRef(output, id)` of `containerCollectionsOCI`,
  returning the `resource` field of the resolved reference (`none` for a
  malformed identifier);
* `fetchManifest` models
  `fetchOCIFeatureManifestIfExistsFromUserIdentifier`, returning `none`
  when no manifest exists.  The manifest is represented by its only
  observed part: the `dev.containers.experimental.dependsOn` annotation,
  already JSON-parsed into its record entries (in object key order).

Both embeddings return the sequence of identifiers fetched (the fetch
trace) next to the result, and use fuel: with an adversarial
`fetchManifest` the source loop genuinely need not terminate, so `none`
marks a run that exceeds the fuel. -/

structure Manifest where
  dependsOn : Option (List (String × JValue))

structure BuildParams where
  getRef : String → Option String
  fetchManifest : String → Option Manifest

/-- Source lines 112-125: resolve each `(id, options)` entry of the
`dependsOn` annotation into a fresh child node (failing on a malformed
reference). -/
def resolveDependsOnEntries (p : BuildParams) :
    List (String × JValue) → Except String (List FNode)
  | [] => .ok []
  | (id, options) :: rest =>
      match p.getRef id with
      | none => .error ("Invalid reference \x27" ++ id ++ "\x27")
      | some resource =>
          match resolveDependsOnEntries p rest with
          | .error e => .error e
          | .ok children => .ok (FNode.mk resource (some options) [] :: children)

/-- One worklist step shared by both renderings of the builder, covering
source lines 89-127 for the head of the worklist: the dedup check, the
fetch, the annotation read and the child creation.  Returns either a
fatal error (with the updated trace) or the new worklist/accumulator/trace
plus a flag telling whether this step attached children (the only case in
which the source makes its inner recursive call, line 128). -/
def buildStep (p : BuildParams) (current : FNode) (rest acc : List FNode)
    (trace : List String) :
    (List String × Except String (List FNode × List FNode × Bool)) :=
  if acc.any fun f => fNodeEquality f current then
    (trace, .ok (rest, acc, false))
  else
    let trace' := trace ++ [current.id]
    match p.fetchManifest current.id with
    | none =>
        (trace', .error ("Manifest for \x27" ++ current.id ++ "\x27 not found"))
    | some manifest =>
        match manifest.dependsOn with
        | none => (trace', .ok (rest, acc ++ [current], false))
        | some entries =>
            match resolveDependsOnEntries p entries with
            | .error e => (trace', .error e)
            | .ok children =>
                (trace',
                  .ok (rest ++ children,
                    acc ++ [FNode.mk current.id current.options
                      (current.dependsOn ++ children)], true))

/-- The source function `_buildDependencyGraph` (lines 86-132), with its
inner recursive self-call (line 128) rendered explicitly: after the
recursive call has drained the shared worklist, the outer `while` loop
observes an empty worklist and falls through to `return acc`, which is the
`buildDependencyGraphRec p fuel [] acc₂ trace₂` continuation below. -/
def buildDependencyGraphRec (p : BuildParams) :
    Nat → List FNode → List FNode → List String →
      (List String × Option (Except String (List FNode)))
  | _, [], acc, trace => (trace, some (.ok acc))
  | 0, _ :: _, _, trace => (trace, none)
  | fuel + 1, current :: rest, acc, trace =>
      match buildStep p current rest acc trace with
      | (trace', .error e) => (trace', some (.error e))
      | (trace', .ok (worklist', acc', recurse)) =>
          if recurse then
            match buildDependencyGraphRec p fuel worklist' acc' trace' with
            | (trace₂, some (.ok acc₂)) =>
                buildDependencyGraphRec p fuel [] acc₂ trace₂
            | other => other
          else
            buildDependencyGraphRec p fuel worklist' acc' trace'

/-- The plain non-recursive worklist loop the design notes call for:
process the head, then continue with the remaining queue until it is
empty.  Same per-item semantics (`buildStep`), no inner self-call. -/
def buildDependencyGraphLoop (p : BuildParams) :
    Nat → List FNode → List FNode → List String →
      (List String × Option (Except String (List FNode)))
  | _, [], acc, trace => (trace, some (.ok acc))
  | 0, _ :: _, _, trace => (trace, none)
  | fuel + 1, current :: rest, acc, trace =>
      match buildStep p current rest acc trace with
      | (trace', .error e) => (trace', some (.error e))
      | (trace', .ok (worklist', acc', _)) =>
          buildDependencyGraphLoop p fuel worklist' acc' trace'

theorem buildDependencyGraphRec_nil (p : BuildParams) (fuel : Nat)
    (acc : List FNode) (trace : List String) :
    buildDependencyGraphRec p fuel [] acc trace = (trace, some (.ok acc)) := by
  cases fuel <;> rfl

/-- The recursive and the loop renderings agree for every fuel, worklist,
accumulator and trace: same fetches in the same order, same result. -/
theorem buildDependencyGraphRec_eq_loop (p : BuildParams) :
    ∀ fuel worklist acc trace,
      buildDependencyGraphRec p fuel worklist acc trace =
        buildDependencyGraphLoop p fuel worklist acc trace := by
  intro fuel
  induction fuel with
  | zero =>
      intro worklist acc trace
      match worklist with
      | [] => rfl
      | _ :: _ => rfl
  | succ n ih =>
      intro worklist acc trace
      match worklist with
      | [] => rfl
      | current :: rest =>
          simp only [buildDependencyGraphRec, buildDependencyGraphLoop]
          match buildStep p current rest acc trace with
          | (trace', .error e) => rfl
          | (trace', .ok (worklist', acc', recurse)) =>
              simp only
              cases recurse with
              | false => exact ih worklist' acc' trace'
              | true =>
                  simp only [if_true]
                  rw [ih worklist' acc' trace']
                  match h : buildDependencyGraphLoop p n worklist' acc' trace' with
                  | (trace₂, some (.ok acc₂)) => rfl
                  | (trace₂, some (.error e)) => rfl
                  | (trace₂, none) => rfl

/-! ## Correctness lemmas for the round scheduler -/

theorem fNodeEquality_symm (a b : FNode) : fNodeEquality a b = fNodeEquality b a := by
  by_cases h : fNodeEquality a b = true
  · have h' := (fNodeEquality_iff a b).mp h
    exact h.trans ((fNodeEquality_iff b a).mpr ⟨h'.1.symm, h'.2.symm⟩).symm
  · rw [Bool.not_eq_true] at h
    rw [h]
    by_cases h' : fNodeEquality b a = true
    · have h'' := (fNodeEquality_iff b a).mp h'
      exact absurd ((fNodeEquality_iff a b).mpr ⟨h''.1.symm, h''.2.symm⟩) (by simp [h])
    · simp [Bool.not_eq_true] at h'
      rw [h']

/-- `fNodeEquality` reads only `id` and `options`, never `dependsOn`. -/
theorem fNodeEquality_ignores_dependsOn (a : FNode) (i : String)
    (o : Option JValue) (d d' : List FNode) :
    fNodeEquality a (.mk i o d) = fNodeEquality a (.mk i o d') := rfl

/-- The installation order produced so far is topologically valid: every
entry's declared dependencies are matched (by `fNodeEquality`) at a
strictly earlier position. -/
def depsSatisfiedAt (order : List FNode) : Prop :=
  ∀ i, i < order.length → ∀ dep ∈ (order.getD i default).dependsOn,
    ∃ j, j < i ∧ fNodeEquality (order.getD j default) dep = true

theorem depsSatisfiedAt_append (installed round : List FNode)
    (hinst : depsSatisfiedAt installed)
    (hround : ∀ r ∈ round, ∀ dep ∈ r.dependsOn,
      ∃ ins ∈ installed, fNodeEquality ins dep = true) :
    depsSatisfiedAt (installed ++ round) := by
  intro i hi dep hdep
  rw [List.length_append] at hi
  by_cases hlt : i < installed.length
  · rw [List.getD_append _ _ _ _ hlt] at hdep
    obtain ⟨j, hj, hmatch⟩ := hinst i hlt dep hdep
    exact ⟨j, hj, by rwa [List.getD_append _ _ _ _ (hj.trans hlt)]⟩
  · push_neg at hlt
    rw [List.getD_append_right _ _ _ _ hlt] at hdep
    have hr : round.getD (i - installed.length) default ∈ round := by
      have hlen : i - installed.length < round.length := by omega
      rw [List.getD_eq_getElem round default hlen]
      exact List.getElem_mem hlen
    obtain ⟨ins, hins, hmatch⟩ := hround _ hr dep hdep
    obtain ⟨j, hjlen, hj⟩ := List.getElem_of_mem hins
    refine ⟨j, by omega, ?_⟩
    rw [List.getD_append _ _ _ _ hjlen, List.getD_eq_getElem installed default hjlen, hj]
    exact hmatch

theorem readyRound_deps_installed (installed worklist : List FNode) :
    ∀ r ∈ readyRound installed worklist, ∀ dep ∈ r.dependsOn,
      ∃ ins ∈ installed, fNodeEquality ins dep = true := by
  intro r hr dep hdep
  rw [readyRound, List.mem_filter] at hr
  rcases Bool.or_eq_true _ _ |>.mp hr.2 with hempty | hall
  · rw [List.isEmpty_iff] at hempty
    rw [hempty] at hdep
    exact absurd hdep (List.not_mem_nil dep)
  · rw [List.all_eq_true] at hall
    have := hall dep hdep
    rw [List.any_eq_true] at this
    obtain ⟨ins, hins, hmatch⟩ := this
    exact ⟨ins, hins, hmatch⟩

theorem computeDependsOnRounds_topological :
    ∀ fuel worklist installed order, depsSatisfiedAt installed →
      computeDependsOnRounds fuel worklist installed = some (.ok order) →
      depsSatisfiedAt order := by
  intro fuel
  induction fuel with
  | zero =>
      intro worklist installed order hinst heq
      match worklist with
      | [] =>
          simp only [computeDependsOnRounds, Option.some.injEq, Except.ok.injEq] at heq
          exact heq ▸ hinst
      | _ :: _ => simp [computeDependsOnRounds] at heq
  | succ n ih =>
      intro worklist installed order hinst heq
      match worklist with
      | [] =>
          simp only [computeDependsOnRounds, Option.some.injEq, Except.ok.injEq] at heq
          exact heq ▸ hinst
      | w :: ws =>
          rw [computeDependsOnRounds] at heq
          by_cases hr : (readyRound installed (w :: ws)).isEmpty
          · simp [hr] at heq
          · simp only [hr, if_false] at heq
            refine ih _ _ _ ?_ heq
            apply depsSatisfiedAt_append _ _ hinst
            intro r hrmem
            have : r ∈ readyRound installed (w :: ws) :=
              (sortBy_perm fNodeSortLe _).mem_iff.mp hrmem
            exact readyRound_deps_installed installed (w :: ws) r this

theorem depsSatisfiedAt_nil : depsSatisfiedAt [] := by
  intro i hi
  simp at hi

theorem computeDependsOnInstallationOrder_eq (worklist : List FNode) :
    computeDependsOnRounds worklist.length worklist [] =
      some (computeDependsOnInstallationOrder worklist) := by
  unfold computeDependsOnInstallationOrder
  split
  · next _ h => exact h
  · next h =>
      exact absurd h (computeDependsOnRounds_adequate worklist.length worklist [] le_rfl)

theorem computeDependsOnRounds_pairwise :
    ∀ fuel worklist installed order,
      worklist.Pairwise (fun a b => fNodeEquality a b = false) →
      installed.Pairwise (fun a b => fNodeEquality a b = false) →
      (∀ a ∈ installed, ∀ b ∈ worklist, fNodeEquality a b = false) →
      computeDependsOnRounds fuel worklist installed = some (.ok order) →
      order.Pairwise (fun a b => fNodeEquality a b = false) := by
  have hsymm : Symmetric (fun a b : FNode => fNodeEquality a b = false) := by
    intro a b h
    rwa [fNodeEquality_symm]
  intro fuel
  induction fuel with
  | zero =>
      intro worklist installed order _ hinst _ heq
      match worklist with
      | [] =>
          simp only [computeDependsOnRounds, Option.some.injEq, Except.ok.injEq] at heq
          exact heq ▸ hinst
      | _ :: _ => simp [computeDependsOnRounds] at heq
  | succ n ih =>
      intro worklist installed order hwork hinst hcross heq
      match worklist with
      | [] =>
          simp only [computeDependsOnRounds, Option.some.injEq, Except.ok.injEq] at heq
          exact heq ▸ hinst
      | w :: ws =>
          rw [computeDependsOnRounds] at heq
          by_cases hr : (readyRound installed (w :: ws)).isEmpty
          · simp [hr] at heq
          · simp only [hr, if_false] at heq
            have hroundsub := readyRound_sublist installed (w :: ws)
            have hroundpw := hwork.sublist hroundsub
            have hsortmem : ∀ a,
                a ∈ sortBy fNodeSortLe (readyRound installed (w :: ws)) ↔
                  a ∈ readyRound installed (w :: ws) :=
              fun a => (sortBy_perm fNodeSortLe _).mem_iff
            refine ih _ _ _ ?_ ?_ ?_ heq
            · exact hwork.sublist (List.filter_sublist _)
            · rw [List.pairwise_append]
              refine ⟨hinst, ?_, ?_⟩
              · exact ((sortBy_perm fNodeSortLe _).pairwise_iff
                  fun h => hsymm h).mpr hroundpw
              · intro a ha b hb
                exact hcross a ha b (hroundsub.mem ((hsortmem b).mp hb))
            · intro a ha b hb
              rw [List.mem_append] at ha
              rw [List.mem_filter] at hb
              rcases ha with ha | ha
              · exact hcross a ha b hb.1
              · have hnotany := hb.2
                simp only [Bool.not_eq_eq_eq_not, Bool.not_true, List.any_eq_false] at hnotany
                have := hnotany a ((hsortmem a).mp ha)
                exact Bool.not_eq_true _ |>.mp this

theorem FNode.eta (a : FNode) : FNode.mk a.id a.options a.dependsOn = a := by
  cases a
  rfl

theorem pairwise_append_singleton {acc : List FNode} {x : FNode}
    (hacc : acc.Pairwise (fun a b => fNodeEquality a b = false))
    (hx : ∀ f ∈ acc, fNodeEquality f x = false) :
    (acc ++ [x]).Pairwise (fun a b => fNodeEquality a b = false) := by
  rw [List.pairwise_append]
  refine ⟨hacc, List.pairwise_singleton _ x, ?_⟩
  intro a ha b hb
  rw [List.mem_singleton] at hb
  exact hb ▸ hx a ha

/-- Equation lemmas for `buildStep`, one per control path of the loop
body. -/
theorem buildStep_eq_skip {p : BuildParams} {current : FNode}
    {rest acc : List FNode} {trace : List String}
    (h : (acc.any fun f => fNodeEquality f current) = true) :
    buildStep p current rest acc trace = (trace, .ok (rest, acc, false)) := by
  rw [buildStep, if_pos h]

theorem buildStep_eq_noManifest {p : BuildParams} {current : FNode}
    {rest acc : List FNode} {trace : List String}
    (h : ¬(acc.any fun f => fNodeEquality f current) = true)
    (hfetch : p.fetchManifest current.id = none) :
    buildStep p current rest acc trace =
      (trace ++ [current.id],
        .error ("Manifest for \x27" ++ current.id ++ "\x27 not found")) := by
  rw [buildStep, if_neg h]
  simp only [hfetch]

theorem buildStep_eq_noDeps {p : BuildParams} {current : FNode}
    {rest acc : List FNode} {trace : List String} {manifest : Manifest}
    (h : ¬(acc.any fun f => fNodeEquality f current) = true)
    (hfetch : p.fetchManifest current.id = some manifest)
    (hann : manifest.dependsOn = none) :
    buildStep p current rest acc trace =
      (trace ++ [current.id], .ok (rest, acc ++ [current], false)) := by
  rw [buildStep, if_neg h]
  simp only [hfetch, hann]

theorem buildStep_eq_badRef {p : BuildParams} {current : FNode}
    {rest acc : List FNode} {trace : List String} {manifest : Manifest}
    {entries : List (String × JValue)} {e : String}
    (h : ¬(acc.any fun f => fNodeEquality f current) = true)
    (hfetch : p.fetchManifest current.id = some manifest)
    (hann : manifest.dependsOn = some entries)
    (hres : resolveDependsOnEntries p entries = .error e) :
    buildStep p current rest acc trace = (trace ++ [current.id], .error e) := by
  rw [buildStep, if_neg h]
  simp only [hfetch, hann, hres]

theorem buildStep_eq_children {p : BuildParams} {current : FNode}
    {rest acc : List FNode} {trace : List String} {manifest : Manifest}
    {entries : List (String × JValue)} {children : List FNode}
    (h : ¬(acc.any fun f => fNodeEquality f current) = true)
    (hfetch : p.fetchManifest current.id = some manifest)
    (hann : manifest.dependsOn = some entries)
    (hres : resolveDependsOnEntries p entries = .ok children) :
    buildStep p current rest acc trace =
      (trace ++ [current.id],
        .ok (rest ++ children,
          acc ++ [FNode.mk current.id current.options
            (current.dependsOn ++ children)], true)) := by
  rw [buildStep, if_neg h]
  simp only [hfetch, hann, hres]

/-- The accumulator of the worklist loop only ever collects pairwise
structurally-distinct nodes: a node structurally equal to an accumulated
one is skipped by the dedup check of source line 92. -/
theorem buildDependencyGraphLoop_pairwise (p : BuildParams) :
    ∀ fuel worklist acc trace trace' order,
      acc.Pairwise (fun a b => fNodeEquality a b = false) →
      buildDependencyGraphLoop p fuel worklist acc trace =
        (trace', some (.ok order)) →
      order.Pairwise (fun a b => fNodeEquality a b = false) := by
  intro fuel
  induction fuel with
  | zero =>
      intro worklist acc trace trace' order hacc heq
      match worklist with
      | [] =>
          simp only [buildDependencyGraphLoop, Prod.mk.injEq, Option.some.injEq,
            Except.ok.injEq] at heq
          exact heq.2 ▸ hacc
      | _ :: _ => simp [buildDependencyGraphLoop] at heq
  | succ n ih =>
      intro worklist acc trace trace' order hacc heq
      match worklist with
      | [] =>
          simp only [buildDependencyGraphLoop, Prod.mk.injEq, Option.some.injEq,
            Except.ok.injEq] at heq
          exact heq.2 ▸ hacc
      | current :: rest =>
          rw [buildDependencyGraphLoop] at heq
          by_cases hskip : (acc.any fun f => fNodeEquality f current) = true
          · rw [buildStep_eq_skip hskip] at heq
            exact ih rest acc trace trace' order hacc heq
          · have hdistinct : ∀ f ∈ acc, fNodeEquality f current = false := by
              intro f hf
              have := List.any_eq_false.mp (Bool.not_eq_true _ |>.mp hskip) f hf
              exact Bool.not_eq_true _ |>.mp this
            match hfetch : p.fetchManifest current.id with
            | none =>
                rw [buildStep_eq_noManifest hskip hfetch] at heq
                simp at heq
            | some manifest =>
                match hann : manifest.dependsOn with
                | none =>
                    rw [buildStep_eq_noDeps hskip hfetch hann] at heq
                    exact ih _ _ _ _ _ (pairwise_append_singleton hacc hdistinct) heq
                | some entries =>
                    match hres : resolveDependsOnEntries p entries with
                    | .error e =>
                        rw [buildStep_eq_badRef hskip hfetch hann hres] at heq
                        simp at heq
                    | .ok children =>
                        rw [buildStep_eq_children hskip hfetch hann hres] at heq
                        refine ih _ _ _ _ _ (pairwise_append_singleton hacc ?_) heq
                        intro f hf
                        rw [fNodeEquality_ignores_dependsOn f current.id current.options
                          _ current.dependsOn, FNode.eta]
                        exact hdistinct f hf

/-! ## Component A: the soft-order graph builder and sorter
(source lines 14-18 and 203-292)

The parts of a `FeatureSet` the algorithm reads are embedded literally:
`sourceInformation.type` / `userFeatureId` / `userFeatureIdWithoutVersion`
/ `featureRef`, and `features[0].legacyIds` / `currentId` /
`installsAfter`.  The source only ever accesses `features[0]`, so the
`features` array is embedded as that single element, named `feature0`.
`namespace` is a Lean keyword, so `featureRef.namespace` becomes
`nspace`. -/

structure FeatureRef where
  registry : String
  nspace : String
deriving DecidableEq, Repr

structure Feature where
  legacyIds : Option (List String)
  currentId : Option String
  installsAfter : Option (List String)
deriving DecidableEq, Repr

structure SourceInformation where
  srcType : String
  userFeatureId : String
  userFeatureIdWithoutVersion : String
  featureRef : Option FeatureRef
deriving DecidableEq, Repr

structure FeatureSet where
  sourceInformation : SourceInformation
  feature0 : Feature
deriving DecidableEq, Repr

instance : Inhabited FeatureSet :=
  ⟨⟨⟨"", "", "", none⟩, ⟨none, none, none⟩⟩⟩

/-- The key of source line 209: the identifier portion of
`userFeatureId` before the `:` version separator. -/
def featureKey (f : FeatureSet) : String :=
  String.mk (f.sourceInformation.userFeatureId.toList.takeWhile fun c => c != ':')

/-- `Map.set` of a JavaScript `Map`: replaces the value in place if the
key exists (keeping the key's original iteration position), appends
otherwise. -/
def setPreservingOrder (m : List (String × FeatureSet)) (k : String)
    (v : FeatureSet) : List (String × FeatureSet) :=
  if m.any fun kv => kv.1 == k then
    m.map fun kv => if kv.1 == k then (k, v) else kv
  else m ++ [(k, v)]

/-- The `nodesById` map of source lines 205-209, as an insertion-ordered
association list: later descriptors with the same key overwrite earlier
ones. -/
def buildNodesById (features : List FeatureSet) : List (String × FeatureSet) :=
  features.foldl (fun m f => setPreservingOrder m (featureKey f) f) []

/-- JavaScript string interpolation of a possibly-`undefined` value: an
`undefined` `currentId` interpolates as the text `"undefined"`. -/
def jsStringOfUndef : Option String → String
  | some s => s
  | none => "undefined"

/-- The in-place legacy-id normalization of source lines 214-223: for an
`oci` descriptor with a non-empty `legacyIds` list and a `featureRef`,
prefix every legacy id and the current id with `registry/namespace/`. -/
def rewriteFeature (f : FeatureSet) : FeatureSet :=
  if f.sourceInformation.srcType == "oci"
      && !(f.feature0.legacyIds.getD []).isEmpty then
    match f.sourceInformation.featureRef with
    | some ref =>
        { f with feature0 := { f.feature0 with
            legacyIds := some ((f.feature0.legacyIds.getD []).map
              fun legacyId => ref.registry ++ "/" ++ ref.nspace ++ "/" ++ legacyId),
            currentId := some (ref.registry ++ "/" ++ ref.nspace ++ "/"
              ++ jsStringOfUndef f.feature0.currentId) } }
    | none => f
  else f

/-- Whether position `p` holds the last descriptor with its key: exactly
those array elements are the values of `nodesById` and are therefore the
objects mutated in place by the normalization step. -/
def isLastWithKey (features : List FeatureSet) (p : Nat) : Bool :=
  (features.drop (p + 1)).all fun f2 =>
    featureKey f2 != featureKey (features.getD p default)

/-- The caller's `features` array as observed after
`computeInstallationOrder` returns: the surviving (last-per-key)
descriptor objects have been rewritten in place by the legacy-id
normalization; dropped duplicates are untouched.  This models the
reference aliasing of the JavaScript arrays as a value-level function. -/
def mutateFeaturesInPlace (features : List FeatureSet) : List FeatureSet :=
  (List.range features.length).map fun p =>
    let f := features.getD p default
    if isLastWithKey features p then rewriteFeature f else f

/-- Source lines 14-18: a graph node wrapping one descriptor with its
`before` and `after` relation sets.  Nodes live in a positional list and
the relation sets hold positions, modelling the object references of the
source; JavaScript `Set` insertion order is kept by using ordered
duplicate-free lists. -/
structure FeatureNode where
  feature : FeatureSet
  before : List Nat
  after : List Nat
deriving DecidableEq, Repr

instance : Inhabited FeatureNode := ⟨⟨default, [], []⟩⟩

def nodeAt (g : List FeatureNode) (i : Nat) : FeatureNode :=
  g.getD i default

/-- The rewritten descriptors of the graph nodes, in `nodesById` value
iteration order (source line 211 followed by the rewrite of 214-223). -/
def graphFeatures (features : List FeatureSet) : List FeatureSet :=
  (buildNodesById features).map fun kv => rewriteFeature kv.2

/-- The keys of `nodesById`, aligned positionally with
`graphFeatures`. -/
def graphKeys (features : List FeatureSet) : List String :=
  (buildNodesById features).map Prod.fst

/-- The three-stage lookup of source lines 227-237: direct key match in
`nodesById`, then a node whose rewritten `legacyIds` contains the id,
then a node whose rewritten `currentId` equals the id. -/
def resolveInstallsAfter (keys : List String) (feats : List FeatureSet)
    (firstId : String) : Option Nat :=
  match keys.findIdx? (· == firstId) with
  | some i => some i
  | none =>
      match feats.findIdx? (fun f =>
          (f.feature0.legacyIds.getD []).contains firstId) with
      | some i => some i
      | none => feats.findIdx? (fun f => f.feature0.currentId == some firstId)

/-- JavaScript `Set.add`: append if absent. -/
def setInsert (l : List Nat) (x : Nat) : List Nat :=
  if l.contains x then l else l ++ [x]

/-- Source lines 240-243: record the soft edge on both endpoints
(`later.after.add(first)` and `first.before.add(later)`). -/
def addEdge (g : List FeatureNode) (later first : Nat) : List FeatureNode :=
  g.mapIdx fun i node =>
    let node1 :=
      if i == later then { node with after := setInsert node.after first } else node
    if i == first then { node1 with before := setInsert node1.before later } else node1

def initialGraph (features : List FeatureSet) : List FeatureNode :=
  (graphFeatures features).map fun f => ⟨f, [], []⟩

/-- The edge-discovery loop of source lines 225-245 run to completion. -/
def builtGraph (features : List FeatureSet) : List FeatureNode :=
  let feats := graphFeatures features
  let keys := graphKeys features
  (List.range feats.length).foldl
    (fun g later =>
      (((feats.getD later default).feature0.installsAfter).getD []).foldl
        (fun g firstId =>
          match resolveInstallsAfter keys feats firstId with
          | some first => addEdge g later first
          | none => g)
        g)
    (initialGraph features)

/-- The root/island partition of source lines 247-256, preserving node
order. -/
def rootsOf (g : List FeatureNode) : List Nat :=
  (List.range g.length).filter fun i =>
    (nodeAt g i).after.isEmpty && !(nodeAt g i).before.isEmpty

def islandsOf (g : List FeatureNode) : List Nat :=
  (List.range g.length).filter fun i =>
    (nodeAt g i).after.isEmpty && (nodeAt g i).before.isEmpty

/-- `later.after.delete(first)` of source line 264. -/
def eraseAfter (g : List FeatureNode) (later first : Nat) : List FeatureNode :=
  g.mapIdx fun i node =>
    if i == later then { node with after := node.after.erase first } else node

/-- The inner double loop of source lines 261-269: for each node of the
current layer, delete it from the `after` set of each of its `before`
successors; a successor whose `after` set empties joins the next layer. -/
def processLayer (g : List FeatureNode) (current : List Nat) :
    List FeatureNode × List Nat :=
  current.foldl
    (fun st first =>
      ((nodeAt st.1 first).before).foldl
        (fun st later =>
          if (nodeAt (eraseAfter st.1 later first) later).after.isEmpty then
            (eraseAfter st.1 later first, st.2 ++ [later])
          else (eraseAfter st.1 later first, st.2))
        st)
    (g, [])

/-- The per-layer emission sort of source lines 271-272: ascending by
`userFeatureId`.  The JavaScript comparator `a < b ? -1 : 1` is only
consistent when the compared ids differ; graph nodes have pairwise
distinct keys and hence distinct ids, on which any comparison sort
produces this unique ascending order. -/
def sortLayer (g : List FeatureNode) (layer : List Nat) : List Nat :=
  sortBy (fun i j =>
    strLe (nodeAt g i).feature.sourceInformation.userFeatureId
      (nodeAt g j).feature.sourceInformation.userFeatureId) layer

/-- The layered peeling loop of source lines 258-275, emitting node
positions layer by layer.  One fuel unit per iteration; the caller passes
`g.length + 1`, enough for any run from a graph built by `builtGraph`
(each layer but the last emits at least one node). -/
def peel : Nat → List FeatureNode → List Nat → List Nat → List Nat
  | 0, _, _, emitted => emitted
  | fuel + 1, g, current, emitted =>
      if current.isEmpty then emitted
      else
        peel fuel (processLayer g current).1 (processLayer g current).2
          (emitted ++ sortLayer (processLayer g current).1 current)

/-- The complete emission order of source lines 258-280: the peeled
layers followed by the lexicographically sorted islands. -/
def orderedFeaturesOf (features : List FeatureSet) : List FeatureSet :=
  let g := builtGraph features
  (peel (g.length + 1) g (rootsOf g) []).map (fun i => (nodeAt g i).feature)
    ++ (sortLayer g (islandsOf g)).map fun i => (nodeAt g i).feature

/-- The `missing` set of source lines 282-285: the keys of `nodesById`
never emitted, in key insertion order. -/
def unresolvedKeys (features : List FeatureSet) : List String :=
  (graphKeys features).filter fun k =>
    (orderedFeaturesOf features).all fun f => featureKey f != k

/-- Source function `computeInstallationOrder` (lines 204-292): the
installation order, or the cyclic-dependency error of lines 287-289. -/
def computeInstallationOrder (features : List FeatureSet) :
    Except String (List FeatureSet) :=
  if (unresolvedKeys features).isEmpty then .ok (orderedFeaturesOf features)
  else
    .error ("Features declare cyclic dependency: "
      ++ String.intercalate ", " (unresolvedKeys features))

/-- `computeInstallationOrder` together with its observable side effect
on the caller's array (the in-place legacy-id rewriting of the surviving
descriptor objects). -/
def computeInstallationOrderFull (features : List FeatureSet) :
    List FeatureSet × Except String (List FeatureSet) :=
  (mutateFeaturesInPlace features, computeInstallationOrder features)

/-! ## Component D: the override post-processor (source lines 31-48)

`config.overrideFeatureInstallOrder` is passed as the list of override
identifiers.  `features.indexOf(feature)` compares object references in
JavaScript; since the searched object is always an element of the array,
this is modelled as the first structural occurrence.  `indexOf` yields
`-1` when the object was already removed, and `splice(-1, 1)` then
removes the **last** element of the array — this behaviour is embedded
as-is. -/

/-- `features.indexOf(feature)`: first occurrence or `-1`. -/
def indexOfFeature (l : List FeatureSet) (f : FeatureSet) : Int :=
  match l.findIdx? (· == f) with
  | some i => (i : Int)
  | none => -1

/-- `features.splice(i, 1)`: remove one element at `i`; a negative `i`
counts from the end, so `splice(-1, 1)` removes the last element. -/
def spliceRemoveOne (l : List FeatureSet) (i : Int) : List FeatureSet :=
  if i < 0 then l.dropLast else l.eraseIdx i.toNat

/-- The `for (const featureId of config.overrideFeatureInstallOrder!)`
loop of source lines 37-45: find each override id in the automatic order
(matching `userFeatureIdWithoutVersion` or `userFeatureId`), move it to
the front, and splice it out of the caller's array. -/
def overrideLoop (automaticOrder : List FeatureSet) :
    List String → List FeatureSet → List FeatureSet →
      Except String (List FeatureSet)
  | [], featuresArr, orderedFeatures => .ok (orderedFeatures ++ featuresArr)
  | featureId :: restIds, featuresArr, orderedFeatures =>
      match automaticOrder.find? (fun feature =>
          feature.sourceInformation.userFeatureIdWithoutVersion == featureId
            || feature.sourceInformation.userFeatureId == featureId) with
      | none => .error ("Feature " ++ featureId ++ " not found")
      | some feature =>
          overrideLoop automaticOrder restIds
            (spliceRemoveOne featuresArr (indexOfFeature featuresArr feature))
            (orderedFeatures ++ [feature])

/-- Source function `computeOverrideInstallationOrder` (lines 31-48).
The `features` array seen by the loop is the caller's array as left by
`computeInstallationOrder`, i.e. with the surviving descriptors rewritten
in place. -/
def computeOverrideInstallationOrder (overrideFeatureInstallOrder : List String)
    (features : List FeatureSet) : Except String (List FeatureSet) :=
  match computeInstallationOrderFull features with
  | (mutatedFeatures, .ok automaticOrder) =>
      overrideLoop automaticOrder overrideFeatureInstallOrder mutatedFeatures []
  | (_, .error e) => .error e

/-! ## Structural lemmas for the soft-order graph -/

def afterAt (g : List FeatureNode) (i : Nat) : List Nat := (nodeAt g i).after

def beforeAt (g : List FeatureNode) (i : Nat) : List Nat := (nodeAt g i).before

def featureAt (g : List FeatureNode) (i : Nat) : FeatureSet := (nodeAt g i).feature

theorem nodeAt_of_le {g : List FeatureNode} {i : Nat} (h : g.length ≤ i) :
    nodeAt g i = default := by
  unfold nodeAt
  exact List.getD_eq_default _ _ h

theorem nodeAt_mapIdx (g : List FeatureNode) (f : Nat → FeatureNode → FeatureNode)
    (i : Nat) (h : i < g.length) :
    nodeAt (g.mapIdx f) i = f i (nodeAt g i) := by
  unfold nodeAt
  rw [List.getD_eq_getElem _ _ (by simpa using h), List.getD_eq_getElem _ _ h,
    List.getElem_mapIdx]

theorem mem_setInsert (l : List Nat) (x y : Nat) :
    y ∈ setInsert l x ↔ y ∈ l ∨ y = x := by
  unfold setInsert
  by_cases hc : x ∈ l
  · rw [if_pos (List.elem_iff.mpr hc)]
    constructor
    · exact Or.inl
    · rintro (hy | rfl)
      · exact hy
      · exact hc
  · rw [if_neg (fun hcon => hc (List.elem_iff.mp hcon))]
    simp

theorem setInsert_nodup {l : List Nat} (x : Nat) (h : l.Nodup) :
    (setInsert l x).Nodup := by
  unfold setInsert
  by_cases hc : x ∈ l
  · rwa [if_pos (List.elem_iff.mpr hc)]
  · rw [if_neg (fun hcon => hc (List.elem_iff.mp hcon))]
    refine List.Nodup.append h (List.nodup_singleton x) ?_
    intro a ha hb
    rw [List.mem_singleton] at hb
    subst hb
    exact hc ha

theorem addEdge_length (g : List FeatureNode) (later first : Nat) :
    (addEdge g later first).length = g.length :=
  List.length_mapIdx ..

theorem afterAt_addEdge (g : List FeatureNode) (later first i : Nat) :
    afterAt (addEdge g later first) i =
      if i = later ∧ i < g.length then setInsert (afterAt g i) first
      else afterAt g i := by
  by_cases h : i < g.length
  · unfold afterAt
    rw [addEdge, nodeAt_mapIdx g _ i h]
    by_cases hl : i = later
    · subst hl
      by_cases hf : i = first
      · subst hf
        simp [h]
      · simp [hf, h]
    · by_cases hf : i = first
      · subst hf
        simp [hl, h]
      · simp [hl, hf, h]
  · have h1 : nodeAt (addEdge g later first) i = default :=
      nodeAt_of_le (by rw [addEdge_length]; omega)
    have h2 : nodeAt g i = default := nodeAt_of_le (by omega)
    unfold afterAt
    rw [h1, h2]
    simp [h]

theorem beforeAt_addEdge (g : List FeatureNode) (later first i : Nat) :
    beforeAt (addEdge g later first) i =
      if i = first ∧ i < g.length then setInsert (beforeAt g i) later
      else beforeAt g i := by
  by_cases h : i < g.length
  · unfold beforeAt
    rw [addEdge, nodeAt_mapIdx g _ i h]
    by_cases hl : i = later
    · subst hl
      by_cases hf : i = first
      · subst hf
        simp [h]
      · simp [hf, h]
    · by_cases hf : i = first
      · subst hf
        simp [hl, h]
      · simp [hl, hf, h]
  · have h1 : nodeAt (addEdge g later first) i = default :=
      nodeAt_of_le (by rw [addEdge_length]; omega)
    have h2 : nodeAt g i = default := nodeAt_of_le (by omega)
    unfold beforeAt
    rw [h1, h2]
    simp [h]

theorem featureAt_addEdge (g : List FeatureNode) (later first i : Nat) :
    featureAt (addEdge g later first) i = featureAt g i := by
  by_cases h : i < g.length
  · unfold featureAt
    rw [addEdge, nodeAt_mapIdx g _ i h]
    by_cases hl : i = later
    · subst hl
      by_cases hf : i = first
      · subst hf
        simp
      · simp [hf]
    · by_cases hf : i = first
      · subst hf
        simp [hl]
      · simp [hl, hf]
  · have h1 : nodeAt (addEdge g later first) i = default :=
      nodeAt_of_le (by rw [addEdge_length]; omega)
    have h2 : nodeAt g i = default := nodeAt_of_le (by omega)
    unfold featureAt
    rw [h1, h2]

theorem eraseAfter_length (g : List FeatureNode) (later first : Nat) :
    (eraseAfter g later first).length = g.length :=
  List.length_mapIdx ..

theorem afterAt_eraseAfter (g : List FeatureNode) (later first i : Nat) :
    afterAt (eraseAfter g later first) i =
      if i = later ∧ i < g.length then (afterAt g i).erase first
      else afterAt g i := by
  by_cases h : i < g.length
  · unfold afterAt
    rw [eraseAfter, nodeAt_mapIdx g _ i h]
    by_cases hl : i = later
    · subst hl
      simp [h]
    · simp [hl]
  · have h1 : nodeAt (eraseAfter g later first) i = default :=
      nodeAt_of_le (by rw [eraseAfter_length]; omega)
    have h2 : nodeAt g i = default := nodeAt_of_le (by omega)
    unfold afterAt
    rw [h1, h2]
    simp [h]

theorem beforeAt_eraseAfter (g : List FeatureNode) (later first i : Nat) :
    beforeAt (eraseAfter g later first) i = beforeAt g i := by
  by_cases h : i < g.length
  · unfold beforeAt
    rw [eraseAfter, nodeAt_mapIdx g _ i h]
    by_cases hl : i = later <;> simp [hl]
  · have h1 : nodeAt (eraseAfter g later first) i = default :=
      nodeAt_of_le (by rw [eraseAfter_length]; omega)
    have h2 : nodeAt g i = default := nodeAt_of_le (by omega)
    unfold beforeAt
    rw [h1, h2]

theorem featureAt_eraseAfter (g : List FeatureNode) (later first i : Nat) :
    featureAt (eraseAfter g later first) i = featureAt g i := by
  by_cases h : i < g.length
  · unfold featureAt
    rw [eraseAfter, nodeAt_mapIdx g _ i h]
    by_cases hl : i = later <;> simp [hl]
  · have h1 : nodeAt (eraseAfter g later first) i = default :=
      nodeAt_of_le (by rw [eraseAfter_length]; omega)
    have h2 : nodeAt g i = default := nodeAt_of_le (by omega)
    unfold featureAt
    rw [h1, h2]

/-! Generic fold-invariant helpers. -/

theorem foldl_preserve_mem {α σ : Type _} {P : σ → Prop} (s : σ → α → σ) :
    ∀ (l : List α), (∀ st a, a ∈ l → P st → P (s st a)) →
      ∀ st, P st → P (l.foldl s st) := by
  intro l
  induction l with
  | nil => intro _ st h; exact h
  | cons a t ih =>
      intro hstep st h
      exact ih (fun st b hb => hstep st b (List.mem_cons_of_mem a hb))
        (s st a) (hstep st a (List.mem_cons_self a t) h)

theorem foldl_preserve_establish {α σ : Type _} {I P : σ → Prop}
    (s : σ → α → σ) (x : α) :
    ∀ (l : List α), x ∈ l →
      (∀ st a, a ∈ l → I st → I (s st a)) →
      (∀ st a, a ∈ l → I st → P st → P (s st a)) →
      (∀ st, I st → P (s st x)) →
      ∀ st, I st → P (l.foldl s st) := by
  intro l
  induction l with
  | nil => intro hx; exact absurd hx (List.not_mem_nil x)
  | cons a t ih =>
      intro hx hI hP hest st h0
      rcases List.mem_cons.mp hx with rfl | hxt
      · have hPx : P (s st x) := hest st h0
        have hIx : I (s st x) := hI st x (List.mem_cons_self x t) h0
        have : I (t.foldl s (s st x)) ∧ P (t.foldl s (s st x)) := by
          apply foldl_preserve_mem (P := fun g => I g ∧ P g) s t
          · intro st' b hb hIP
            exact ⟨hI st' b (List.mem_cons_of_mem x hb) hIP.1,
              hP st' b (List.mem_cons_of_mem x hb) hIP.1 hIP.2⟩
          · exact ⟨hIx, hPx⟩
        exact this.2
      · exact ih hxt (fun st' b hb => hI st' b (List.mem_cons_of_mem a hb))
          (fun st' b hb => hP st' b (List.mem_cons_of_mem a hb))
          hest (s st a) (hI st a (List.mem_cons_self a t) h0)

/-! ## Invariants of the built soft-order graph -/

/-- Invariant of the edge-discovery phase: node count and wrapped
descriptors are fixed, the `before`/`after` sets are inverse views of one
edge set over in-range nodes, and both sets are duplicate-free. -/
def GraphInv (feats : List FeatureSet) (g : List FeatureNode) : Prop :=
  g.length = feats.length ∧
  (∀ i, featureAt g i = feats.getD i default) ∧
  (∀ i j, j ∈ afterAt g i ↔ i ∈ beforeAt g j) ∧
  (∀ i j, j ∈ afterAt g i → i < feats.length ∧ j < feats.length) ∧
  (∀ i, (afterAt g i).Nodup ∧ (beforeAt g i).Nodup)

theorem initialGraph_afterAt (features : List FeatureSet) (i : Nat) :
    afterAt (initialGraph features) i = [] := by
  unfold afterAt initialGraph
  by_cases h : i < (graphFeatures features).length
  · unfold nodeAt
    rw [List.getD_eq_getElem _ _ (by simpa using h), List.getElem_map]
  · rw [nodeAt_of_le (by simpa using h)]
    rfl

theorem initialGraph_beforeAt (features : List FeatureSet) (i : Nat) :
    beforeAt (initialGraph features) i = [] := by
  unfold beforeAt initialGraph
  by_cases h : i < (graphFeatures features).length
  · unfold nodeAt
    rw [List.getD_eq_getElem _ _ (by simpa using h), List.getElem_map]
  · rw [nodeAt_of_le (by simpa using h)]
    rfl

theorem initialGraph_featureAt (features : List FeatureSet) (i : Nat) :
    featureAt (initialGraph features) i = (graphFeatures features).getD i default := by
  unfold featureAt initialGraph
  by_cases h : i < (graphFeatures features).length
  · unfold nodeAt
    rw [List.getD_eq_getElem _ _ (by simpa using h), List.getElem_map,
      List.getD_eq_getElem _ _ h]
  · rw [nodeAt_of_le (by simpa using h), List.getD_eq_default _ _ (by omega)]
    rfl

theorem GraphInv_initial (features : List FeatureSet) :
    GraphInv (graphFeatures features) (initialGraph features) := by
  refine ⟨List.length_map _ _, initialGraph_featureAt features, ?_, ?_, ?_⟩
  · intro i j
    rw [initialGraph_afterAt, initialGraph_beforeAt]
    simp
  · intro i j hj
    rw [initialGraph_afterAt] at hj
    exact absurd hj (List.not_mem_nil j)
  · intro i
    rw [initialGraph_afterAt, initialGraph_beforeAt]
    exact ⟨List.nodup_nil, List.nodup_nil⟩

theorem GraphInv_addEdge {feats : List FeatureSet} {g : List FeatureNode}
    (hg : GraphInv feats g) {later first : Nat}
    (hlater : later < feats.length) (hfirst : first < feats.length) :
    GraphInv feats (addEdge g later first) := by
  obtain ⟨hlen, hfeat, hiff, hbound, hnodup⟩ := hg
  refine ⟨by rw [addEdge_length]; exact hlen, ?_, ?_, ?_, ?_⟩
  · intro i
    rw [featureAt_addEdge]
    exact hfeat i
  · intro i j
    rw [afterAt_addEdge, beforeAt_addEdge, hlen]
    by_cases hi : i = later ∧ i < feats.length <;>
      by_cases hj : j = first ∧ j < feats.length
    · rw [if_pos hi, if_pos hj, mem_setInsert, mem_setInsert]
      constructor
      · intro _; exact Or.inr hi.1
      · intro _; exact Or.inr hj.1
    · rw [if_pos hi, if_neg hj, mem_setInsert]
      have hjf : j ≠ first := fun hc => hj ⟨hc, hc ▸ hfirst⟩
      constructor
      · rintro (hmem | rfl)
        · exact (hiff i j).mp hmem
        · exact absurd rfl hjf
      · intro hmem
        exact Or.inl ((hiff i j).mpr hmem)
    · rw [if_neg hi, if_pos hj, mem_setInsert]
      have hil : i ≠ later := fun hc => hi ⟨hc, hc ▸ hlater⟩
      constructor
      · intro hmem
        exact Or.inl ((hiff i j).mp hmem)
      · rintro (hmem | rfl)
        · exact (hiff i j).mpr hmem
        · exact absurd rfl hil
    · rw [if_neg hi, if_neg hj]
      exact hiff i j
  · intro i j hj
    rw [afterAt_addEdge] at hj
    by_cases hi : i = later ∧ i < g.length
    · rw [if_pos hi] at hj
      rcases (mem_setInsert _ _ _).mp hj with hmem | rfl
      · exact hbound i j hmem
      · exact ⟨by rw [← hlen]; exact hi.2, hfirst⟩
    · rw [if_neg hi] at hj
      exact hbound i j hj
  · intro i
    rw [afterAt_addEdge, beforeAt_addEdge]
    refine ⟨?_, ?_⟩
    · by_cases hi : i = later ∧ i < g.length
      · rw [if_pos hi]
        exact setInsert_nodup _ (hnodup i).1
      · rw [if_neg hi]
        exact (hnodup i).1
    · by_cases hi : i = first ∧ i < g.length
      · rw [if_pos hi]
        exact setInsert_nodup _ (hnodup i).2
      · rw [if_neg hi]
        exact (hnodup i).2

theorem graphKeys_length (features : List FeatureSet) :
    (graphKeys features).length = (graphFeatures features).length := by
  unfold graphKeys graphFeatures
  rw [List.length_map, List.length_map]

theorem resolveInstallsAfter_lt {keys : List String} {feats : List FeatureSet}
    {firstId : String} {first : Nat}
    (hk : keys.length = feats.length)
    (h : resolveInstallsAfter keys feats firstId = some first) :
    first < feats.length := by
  unfold resolveInstallsAfter at h
  match h1 : keys.findIdx? (· == firstId) with
  | some i =>
      rw [h1] at h
      obtain rfl : i = first := by simpa using h
      exact hk ▸ (List.findIdx?_eq_some_iff_findIdx_eq.mp h1).1
  | none =>
      rw [h1] at h
      match h2 : feats.findIdx? (fun f => (f.feature0.legacyIds.getD []).contains firstId) with
      | some i =>
          rw [h2] at h
          obtain rfl : i = first := by simpa using h
          exact (List.findIdx?_eq_some_iff_findIdx_eq.mp h2).1
      | none =>
          rw [h2] at h
          exact (List.findIdx?_eq_some_iff_findIdx_eq.mp h).1

/-- One inner step of the edge-discovery loop: resolve one `installsAfter`
identifier for node `later` and add the edge when it resolves. -/
def edgeStep (keys : List String) (feats : List FeatureSet) (later : Nat)
    (g : List FeatureNode) (firstId : String) : List FeatureNode :=
  match resolveInstallsAfter keys feats firstId with
  | some first => addEdge g later first
  | none => g

theorem builtGraph_eq (features : List FeatureSet) :
    builtGraph features =
      (List.range (graphFeatures features).length).foldl
        (fun g later =>
          ((((graphFeatures features).getD later default).feature0.installsAfter).getD []).foldl
            (edgeStep (graphKeys features) (graphFeatures features) later) g)
        (initialGraph features) := by
  rfl

theorem builtGraph_inv (features : List FeatureSet) :
    GraphInv (graphFeatures features) (builtGraph features) := by
  rw [builtGraph_eq]
  apply foldl_preserve_mem (P := GraphInv (graphFeatures features))
  · intro g later hlater hg
    have hlater' : later < (graphFeatures features).length := List.mem_range.mp hlater
    apply foldl_preserve_mem (P := GraphInv (graphFeatures features))
    · intro g' firstId _ hg'
      unfold edgeStep
      match hres : resolveInstallsAfter (graphKeys features) (graphFeatures features) firstId with
      | some first =>
          exact GraphInv_addEdge hg' hlater'
            (resolveInstallsAfter_lt (graphKeys_length features) hres)
      | none => exact hg'
    · exact hg
  · exact GraphInv_initial features

theorem afterAt_edgeStep_mono {keys : List String} {feats : List FeatureSet}
    {later : Nat} {g : List FeatureNode} {firstId : String} {i j : Nat}
    (h : j ∈ afterAt g i) : j ∈ afterAt (edgeStep keys feats later g firstId) i := by
  unfold edgeStep
  match resolveInstallsAfter keys feats firstId with
  | some first =>
      rw [afterAt_addEdge]
      by_cases hi : i = later ∧ i < g.length
      · rw [if_pos hi, mem_setInsert]
        exact Or.inl h
      · rwa [if_neg hi]
  | none => exact h

theorem edgeStep_length {keys : List String} {feats : List FeatureSet}
    {later : Nat} {g : List FeatureNode} {firstId : String} :
    (edgeStep keys feats later g firstId).length = g.length := by
  unfold edgeStep
  match resolveInstallsAfter keys feats firstId with
  | some first => exact addEdge_length ..
  | none => rfl

/-- Every resolved `installsAfter` declaration of a node is present as an
edge of the built graph. -/
theorem edgeFold_length (keys : List String) (feats : List FeatureSet)
    (later : Nat) (l : List String) :
    ∀ g : List FeatureNode,
      (l.foldl (edgeStep keys feats later) g).length = g.length := by
  induction l with
  | nil => intro g; rfl
  | cons a t ih =>
      intro g
      rw [List.foldl_cons, ih, edgeStep_length]

theorem builtGraph_mem_after (features : List FeatureSet) {later first : Nat}
    {firstId : String}
    (hlater : later < (graphFeatures features).length)
    (hdecl : firstId ∈
      (((graphFeatures features).getD later default).feature0.installsAfter).getD [])
    (hres : resolveInstallsAfter (graphKeys features) (graphFeatures features)
      firstId = some first) :
    first ∈ afterAt (builtGraph features) later := by
  rw [builtGraph_eq]
  refine foldl_preserve_establish (I := fun g => g.length = (graphFeatures features).length)
    (P := fun g => first ∈ afterAt g later) _ later (List.range _)
    (List.mem_range.mpr hlater) ?_ ?_ ?_ (initialGraph features) (List.length_map _ _)
  · intro st a _ hst
    rw [edgeFold_length]
    exact hst
  · intro st a _ _ hP
    apply foldl_preserve_mem (P := fun g => first ∈ afterAt g later)
    · intro st' b _ h
      exact afterAt_edgeStep_mono h
    · exact hP
  · intro st hst
    refine foldl_preserve_establish (I := fun g => g.length = (graphFeatures features).length)
      (P := fun g => first ∈ afterAt g later) _ firstId _ hdecl ?_ ?_ ?_ st hst
    · intro st' b _ h
      rw [edgeStep_length, h]
    · intro st' b _ _ hP
      exact afterAt_edgeStep_mono hP
    · intro st' hst'
      unfold edgeStep
      rw [hres, afterAt_addEdge, if_pos ⟨rfl, by omega⟩, mem_setInsert]
      exact Or.inr rfl

/-! ## Invariants of the layered peeling loop -/

/-- The facts about the built graph consumed by the peeling analysis. -/
def GraphOk (gB : List FeatureNode) : Prop :=
  (∀ i j, j ∈ afterAt gB i ↔ i ∈ beforeAt gB j) ∧
  (∀ i j, j ∈ afterAt gB i → i < gB.length ∧ j < gB.length) ∧
  (∀ i, (afterAt gB i).Nodup ∧ (beforeAt gB i).Nodup)

theorem graphOk_builtGraph (features : List FeatureSet) :
    GraphOk (builtGraph features) := by
  obtain ⟨hlen, _, hiff, hbound, hnodup⟩ := builtGraph_inv features
  exact ⟨hiff, fun i j hj => by rw [hlen]; exact hbound i j hj, hnodup⟩

/-- The emitted list is topologically ordered with respect to the built
graph: everything a node installs after occurs strictly earlier. -/
def EmittedTopo (gB : List FeatureNode) (emitted : List Nat) : Prop :=
  ∀ k, k < emitted.length → ∀ j ∈ afterAt gB (emitted.getD k 0),
    ∃ l, l < k ∧ emitted.getD l 0 = j

theorem EmittedTopo.closed {gB : List FeatureNode} {emitted : List Nat}
    (h : EmittedTopo gB emitted) :
    ∀ i ∈ emitted, ∀ j ∈ afterAt gB i, j ∈ emitted := by
  intro i hi j hj
  obtain ⟨k, hk, hik⟩ := List.getElem_of_mem hi
  have hget : emitted.getD k 0 = i := by
    rw [List.getD_eq_getElem _ _ hk, hik]
  obtain ⟨l, hl, hlj⟩ := h k hk j (by rwa [hget])
  rw [← hlj, List.getD_eq_getElem _ _ (by omega)]
  exact List.getElem_mem _

/-- The peeling-loop invariant, between iterations of the `while` loop of
source lines 260-275: `g` is the current graph state, `current` the layer
about to be emitted, `emitted` what has been emitted so far. -/
structure PeelInv (gB g : List FeatureNode) (current emitted : List Nat) : Prop where
  hlen : g.length = gB.length
  hfeat : ∀ i, featureAt g i = featureAt gB i
  hbef : ∀ i, beforeAt g i = beforeAt gB i
  haft : ∀ i j, j ∈ afterAt g i ↔ j ∈ afterAt gB i ∧ j ∉ emitted
  hnodupAft : ∀ i, (afterAt g i).Nodup
  hemNodup : emitted.Nodup
  hcurNodup : current.Nodup
  hcurE : ∀ i ∈ current, i ∉ emitted
  hcurAft : ∀ i ∈ current, afterAt g i = []
  hcurLt : ∀ i ∈ current, i < gB.length
  hemLt : ∀ i ∈ emitted, i < gB.length
  htopo : EmittedTopo gB emitted
  hnoIsland : ∀ i, i ∈ current ∨ i ∈ emitted →
    afterAt gB i ≠ [] ∨ beforeAt gB i ≠ []

/-- The state of the inner loop of `processLayer` while node `first` is
being processed: `cs` are the layer nodes already fully processed, `doneB`
the prefix of `first.before` already visited. -/
structure InnState (gB : List FeatureNode) (E current cs : List Nat)
    (first : Nat) (doneB : List Nat) (st : List FeatureNode × List Nat) : Prop where
  hlen : st.1.length = gB.length
  hfeat : ∀ i, featureAt st.1 i = featureAt gB i
  hbef : ∀ i, beforeAt st.1 i = beforeAt gB i
  haft : ∀ i j, j ∈ afterAt st.1 i ↔
    j ∈ afterAt gB i ∧ j ∉ E ∧ j ∉ cs ∧ ¬(j = first ∧ i ∈ doneB)
  hnodupAft : ∀ i, (afterAt st.1 i).Nodup
  hnx : st.2.Nodup
  hnxE : ∀ i ∈ st.2, i ∉ E
  hnxCur : ∀ i ∈ st.2, i ∉ current
  hnxLt : ∀ i ∈ st.2, i < gB.length
  hnxAft : ∀ i ∈ st.2, ∀ j ∈ afterAt gB i,
    j ∈ E ∨ j ∈ cs ∨ (j = first ∧ i ∈ doneB)
  hnxNonIsland : ∀ i ∈ st.2, afterAt gB i ≠ []

/-- The state of the outer loop of `processLayer` between layer nodes:
`cs` is the processed prefix of the layer. -/
structure OutState (gB : List FeatureNode) (E current cs : List Nat)
    (st : List FeatureNode × List Nat) : Prop where
  hlen : st.1.length = gB.length
  hfeat : ∀ i, featureAt st.1 i = featureAt gB i
  hbef : ∀ i, beforeAt st.1 i = beforeAt gB i
  haft : ∀ i j, j ∈ afterAt st.1 i ↔ j ∈ afterAt gB i ∧ j ∉ E ∧ j ∉ cs
  hnodupAft : ∀ i, (afterAt st.1 i).Nodup
  hnx : st.2.Nodup
  hnxE : ∀ i ∈ st.2, i ∉ E
  hnxCur : ∀ i ∈ st.2, i ∉ current
  hnxLt : ∀ i ∈ st.2, i < gB.length
  hnxAft : ∀ i ∈ st.2, ∀ j ∈ afterAt gB i, j ∈ E ∨ j ∈ cs
  hnxNonIsland : ∀ i ∈ st.2, afterAt gB i ≠ []

/-- One step of the inner loop of source lines 263-268. -/
def peelInnerStep (first : Nat) (st : List FeatureNode × List Nat)
    (later : Nat) : List FeatureNode × List Nat :=
  if (nodeAt (eraseAfter st.1 later first) later).after.isEmpty then
    (eraseAfter st.1 later first, st.2 ++ [later])
  else (eraseAfter st.1 later first, st.2)

theorem processLayer_eq (g : List FeatureNode) (current : List Nat) :
    processLayer g current =
      current.foldl (fun st first =>
        ((nodeAt st.1 first).before).foldl (peelInnerStep first) st) (g, []) := rfl

theorem peelInnerStep_inv {gB : List FeatureNode} (hGB : GraphOk gB)
    {E current cs : List Nat} {first : Nat} {doneB : List Nat}
    {st : List FeatureNode × List Nat} {later : Nat}
    (hfE : first ∉ E) (hfCs : first ∉ cs)
    (hEsub : ∀ i ∈ E, ∀ j ∈ afterAt gB i, j ∈ E)
    (hCurAft : ∀ i ∈ current, ∀ j ∈ afterAt gB i, j ∈ E)
    (hmem : later ∈ beforeAt gB first) (hnotdone : later ∉ doneB)
    (hst : InnState gB E current cs first doneB st) :
    InnState gB E current cs first (doneB ++ [later]) (peelInnerStep first st later) := by
  obtain ⟨hlen, hfeat, hbef, haft, hnodupAft, hnx, hnxE, hnxCur, hnxLt, hnxAft,
    hnxNonIsland⟩ := hst
  have hfirstAft : first ∈ afterAt gB later := (hGB.1 later first).mpr hmem
  have hlaterLt : later < gB.length := (hGB.2.1 later first hfirstAft).1
  have hleng : later < st.1.length := by omega
  -- the graph part of the step is the erasure, in both branches
  have hg' : (peelInnerStep first st later).1 = eraseAfter st.1 later first := by
    unfold peelInnerStep
    by_cases hc : (nodeAt (eraseAfter st.1 later first) later).after.isEmpty <;>
      simp [hc]
  have haft' : ∀ i j, j ∈ afterAt (eraseAfter st.1 later first) i ↔
      j ∈ afterAt gB i ∧ j ∉ E ∧ j ∉ cs ∧ ¬(j = first ∧ i ∈ doneB ++ [later]) := by
    intro i j
    rw [afterAt_eraseAfter]
    by_cases hi : i = later
    · subst hi
      rw [if_pos ⟨rfl, hleng⟩, List.Nodup.mem_erase_iff (hnodupAft i), haft i j]
      constructor
      · rintro ⟨hne, hgB, hE, hcs, _⟩
        exact ⟨hgB, hE, hcs, fun hc => hne hc.1⟩
      · rintro ⟨hgB, hE, hcs, hnc⟩
        have hne : j ≠ first := by
          intro hc
          exact hnc ⟨hc, by simp⟩
        exact ⟨hne, hgB, hE, hcs, fun hc => hne hc.1⟩
    · rw [if_neg (by tauto), haft i j]
      constructor
      · rintro ⟨hgB, hE, hcs, hnc⟩
        refine ⟨hgB, hE, hcs, fun hc => hnc ⟨hc.1, ?_⟩⟩
        rcases List.mem_append.mp hc.2 with hd | hl
        · exact hd
        · rw [List.mem_singleton] at hl
          exact absurd hl hi
      · rintro ⟨hgB, hE, hcs, hnc⟩
        exact ⟨hgB, hE, hcs, fun hc => hnc ⟨hc.1, List.mem_append_left _ hc.2⟩⟩
  have hnodupAft' : ∀ i, (afterAt (eraseAfter st.1 later first) i).Nodup := by
    intro i
    rw [afterAt_eraseAfter]
    by_cases hi : i = later ∧ i < st.1.length
    · rw [if_pos hi]
      exact List.Nodup.erase _ (hnodupAft i)
    · rw [if_neg hi]
      exact hnodupAft i
  unfold peelInnerStep
  by_cases hc : (nodeAt (eraseAfter st.1 later first) later).after.isEmpty
  · -- `later`'s after-set emptied: it is pushed onto the next layer
    rw [if_pos hc]
    have hempty : afterAt (eraseAfter st.1 later first) later = [] :=
      List.isEmpty_iff.mp hc
    have hlaterNx : later ∉ st.2 := by
      intro hin
      rcases hnxAft later hin first hfirstAft with hF | hF | hF
      · exact hfE hF
      · exact hfCs hF
      · exact hnotdone hF.2
    have hlaterE : later ∉ E := by
      intro hin
      exact hfE (hEsub later hin first hfirstAft)
    have hlaterCur : later ∉ current := by
      intro hin
      exact hfE (hCurAft later hin first hfirstAft)
    refine ⟨by rw [eraseAfter_length]; exact hlen,
      fun i => by rw [featureAt_eraseAfter]; exact hfeat i,
      fun i => by rw [beforeAt_eraseAfter]; exact hbef i,
      haft', hnodupAft', ?_, ?_, ?_, ?_, ?_, ?_⟩
    · refine List.Nodup.append hnx (List.nodup_singleton later) ?_
      intro a ha hb
      rw [List.mem_singleton] at hb
      subst hb
      exact hlaterNx ha
    · intro i hi
      rcases List.mem_append.mp hi with hi | hi
      · exact hnxE i hi
      · rw [List.mem_singleton] at hi
        exact hi ▸ hlaterE
    · intro i hi
      rcases List.mem_append.mp hi with hi | hi
      · exact hnxCur i hi
      · rw [List.mem_singleton] at hi
        exact hi ▸ hlaterCur
    · intro i hi
      rcases List.mem_append.mp hi with hi | hi
      · exact hnxLt i hi
      · rw [List.mem_singleton] at hi
        exact hi ▸ hlaterLt
    · intro i hi j hj
      rcases List.mem_append.mp hi with hi | hi
      · rcases hnxAft i hi j hj with hF | hF | hF
        · exact Or.inl hF
        · exact Or.inr (Or.inl hF)
        · exact Or.inr (Or.inr ⟨hF.1, List.mem_append_left _ hF.2⟩)
      · rw [List.mem_singleton] at hi
        subst hi
        by_cases hjmem : j ∈ afterAt (eraseAfter st.1 i first) i
        · rw [hempty] at hjmem
          exact absurd hjmem (List.not_mem_nil j)
        · rw [haft' i j] at hjmem
          push_neg at hjmem
          by_cases hjE : j ∈ E
          · exact Or.inl hjE
          · by_cases hjCs : j ∈ cs
            · exact Or.inr (Or.inl hjCs)
            · have := hjmem hj hjE hjCs
              push_neg at this
              exact Or.inr (Or.inr this)
    · intro i hi
      rcases List.mem_append.mp hi with hi | hi
      · exact hnxNonIsland i hi
      · rw [List.mem_singleton] at hi
        subst hi
        intro hnil
        rw [hnil] at hfirstAft
        exact List.not_mem_nil first hfirstAft
  · -- `later` keeps other pending after-edges: nothing is pushed
    rw [if_neg hc]
    refine ⟨by rw [eraseAfter_length]; exact hlen,
      fun i => by rw [featureAt_eraseAfter]; exact hfeat i,
      fun i => by rw [beforeAt_eraseAfter]; exact hbef i,
      haft', hnodupAft', hnx, hnxE, hnxCur, hnxLt, ?_, hnxNonIsland⟩
    intro i hi j hj
    rcases hnxAft i hi j hj with hF | hF | hF
    · exact Or.inl hF
    · exact Or.inr (Or.inl hF)
    · exact Or.inr (Or.inr ⟨hF.1, List.mem_append_left _ hF.2⟩)

theorem innerFold_inv {gB : List FeatureNode} (hGB : GraphOk gB)
    {E current cs : List Nat} {first : Nat}
    (hfE : first ∉ E) (hfCs : first ∉ cs)
    (hEsub : ∀ i ∈ E, ∀ j ∈ afterAt gB i, j ∈ E)
    (hCurAft : ∀ i ∈ current, ∀ j ∈ afterAt gB i, j ∈ E) :
    ∀ (bs₂ bs₁ : List Nat) (st : List FeatureNode × List Nat),
      beforeAt gB first = bs₁ ++ bs₂ →
      InnState gB E current cs first bs₁ st →
      InnState gB E current cs first (beforeAt gB first)
        (bs₂.foldl (peelInnerStep first) st) := by
  intro bs₂
  induction bs₂ with
  | nil =>
      intro bs₁ st hsplit hst
      rw [List.foldl_nil]
      rw [List.append_nil] at hsplit
      exact hsplit ▸ hst
  | cons later t ih =>
      intro bs₁ st hsplit hst
      rw [List.foldl_cons]
      have hmem : later ∈ beforeAt gB first := by
        rw [hsplit]
        exact List.mem_append_right _ (List.mem_cons_self later t)
      have hnodupB : (beforeAt gB first).Nodup := (hGB.2.2 first).2
      have hnotdone : later ∉ bs₁ := by
        rw [hsplit] at hnodupB
        intro hin
        exact (List.disjoint_of_nodup_append hnodupB) hin (List.mem_cons_self later t)
      refine ih (bs₁ ++ [later]) _ ?_
        (peelInnerStep_inv hGB hfE hfCs hEsub hCurAft hmem hnotdone hst)
      rw [hsplit, List.append_assoc]
      rfl

/-- Starting the inner loop on layer node `first` from the outer state. -/
theorem OutState.toInn {gB : List FeatureNode} {E current cs : List Nat}
    {first : Nat} {st : List FeatureNode × List Nat}
    (h : OutState gB E current cs st) :
    InnState gB E current cs first [] st := by
  obtain ⟨hlen, hfeat, hbef, haft, hnodupAft, hnx, hnxE, hnxCur, hnxLt, hnxAft,
    hnxNonIsland⟩ := h
  refine ⟨hlen, hfeat, hbef, ?_, hnodupAft, hnx, hnxE, hnxCur, hnxLt, ?_,
    hnxNonIsland⟩
  · intro i j
    rw [haft i j]
    constructor
    · rintro ⟨h1, h2, h3⟩
      exact ⟨h1, h2, h3, fun hc => List.not_mem_nil i hc.2⟩
    · rintro ⟨h1, h2, h3, _⟩
      exact ⟨h1, h2, h3⟩
  · intro i hi j hj
    rcases hnxAft i hi j hj with hF | hF
    · exact Or.inl hF
    · exact Or.inr (Or.inl hF)

/-- Finishing layer node `first`: its whole before-list was visited, so
`first` is gone from every after-set and joins the processed prefix. -/
theorem InnState.toOut {gB : List FeatureNode} (hGB : GraphOk gB)
    {E current cs : List Nat} {first : Nat} {st : List FeatureNode × List Nat}
    (h : InnState gB E current cs first (beforeAt gB first) st) :
    OutState gB E current (cs ++ [first]) st := by
  obtain ⟨hlen, hfeat, hbef, haft, hnodupAft, hnx, hnxE, hnxCur, hnxLt, hnxAft,
    hnxNonIsland⟩ := h
  refine ⟨hlen, hfeat, hbef, ?_, hnodupAft, hnx, hnxE, hnxCur, hnxLt, ?_,
    hnxNonIsland⟩
  · intro i j
    rw [haft i j]
    constructor
    · rintro ⟨h1, h2, h3, h4⟩
      refine ⟨h1, h2, ?_⟩
      intro hin
      rcases List.mem_append.mp hin with hin | hin
      · exact h3 hin
      · rw [List.mem_singleton] at hin
        refine h4 ⟨hin, (hGB.1 i first).mp ?_⟩
        rw [← hin]
        exact h1
    · rintro ⟨h1, h2, h3⟩
      refine ⟨h1, h2, fun hin => h3 (List.mem_append_left _ hin), ?_⟩
      rintro ⟨rfl, _⟩
      exact h3 (List.mem_append_right _ (List.mem_singleton.mpr rfl))
  · intro i hi j hj
    rcases hnxAft i hi j hj with hF | hF | hF
    · exact Or.inl hF
    · exact Or.inr (List.mem_append_left _ hF)
    · exact Or.inr (hF.1 ▸ List.mem_append_right _ (List.mem_singleton.mpr rfl))

theorem outerFold_inv {gB : List FeatureNode} (hGB : GraphOk gB)
    {E current : List Nat}
    (hcurNodup : current.Nodup) (hCurE : ∀ i ∈ current, i ∉ E)
    (hEsub : ∀ i ∈ E, ∀ j ∈ afterAt gB i, j ∈ E)
    (hCurAft : ∀ i ∈ current, ∀ j ∈ afterAt gB i, j ∈ E) :
    ∀ (rs cs : List Nat) (st : List FeatureNode × List Nat),
      current = cs ++ rs →
      OutState gB E current cs st →
      OutState gB E current (cs ++ rs)
        (rs.foldl (fun st first =>
          ((nodeAt st.1 first).before).foldl (peelInnerStep first) st) st) := by
  intro rs
  induction rs with
  | nil =>
      intro cs st hsplit hst
      rw [List.foldl_nil, List.append_nil]
      exact hst
  | cons first t ih =>
      intro cs st hsplit hst
      rw [List.foldl_cons]
      have hfirstCur : first ∈ current := by
        rw [hsplit]
        exact List.mem_append_right _ (List.mem_cons_self first t)
      have hfCs : first ∉ cs := by
        rw [hsplit] at hcurNodup
        intro hin
        exact (List.disjoint_of_nodup_append hcurNodup) hin
          (List.mem_cons_self first t)
      have hbefEq : (nodeAt st.1 first).before = beforeAt gB first := hst.hbef first
      rw [hbefEq]
      have hinner : InnState gB E current cs first (beforeAt gB first)
          ((beforeAt gB first).foldl (peelInnerStep first) st) := by
        refine innerFold_inv hGB (hCurE first hfirstCur) hfCs hEsub hCurAft
          (beforeAt gB first) [] st ?_ hst.toInn
        rw [List.nil_append]
      have hout := InnState.toOut hGB hinner
      have := ih (cs ++ [first]) _ (by rw [hsplit, List.append_assoc]; rfl) hout
      rw [List.append_assoc] at this
      exact this

/-- Specification of `processLayer` on a reachable peel state. -/
theorem processLayer_spec {gB g : List FeatureNode} {current emitted : List Nat}
    (hGB : GraphOk gB) (hP : PeelInv gB g current emitted) :
    OutState gB emitted current current (processLayer g current) := by
  rw [processLayer_eq]
  have hCurAft : ∀ i ∈ current, ∀ j ∈ afterAt gB i, j ∈ emitted := by
    intro i hi j hj
    by_contra hjE
    have : j ∈ afterAt g i := (hP.haft i j).mpr ⟨hj, hjE⟩
    rw [hP.hcurAft i hi] at this
    exact List.not_mem_nil j this
  have hEsub : ∀ i ∈ emitted, ∀ j ∈ afterAt gB i, j ∈ emitted :=
    hP.htopo.closed
  have h0 : OutState gB emitted current [] (g, []) := by
    refine ⟨hP.hlen, hP.hfeat, hP.hbef, ?_, hP.hnodupAft, List.nodup_nil, ?_, ?_,
      ?_, ?_, ?_⟩
    · intro i j
      rw [hP.haft i j]
      constructor
      · rintro ⟨h1, h2⟩
        exact ⟨h1, h2, List.not_mem_nil j⟩
      · rintro ⟨h1, h2, _⟩
        exact ⟨h1, h2⟩
    all_goals intro i hi; exact absurd hi (List.not_mem_nil i)
  have := outerFold_inv hGB hP.hcurNodup hP.hcurE hEsub hCurAft current [] (g, [])
    (by rw [List.nil_append]) h0
  rw [List.nil_append] at this
  exact this

theorem EmittedTopo_append {gB : List FeatureNode} {emitted ext : List Nat}
    (h : EmittedTopo gB emitted)
    (hext : ∀ i ∈ ext, ∀ j ∈ afterAt gB i, j ∈ emitted) :
    EmittedTopo gB (emitted ++ ext) := by
  intro k hk j hj
  rw [List.length_append] at hk
  by_cases hlt : k < emitted.length
  · rw [List.getD_append _ _ _ _ hlt] at hj
    obtain ⟨l, hl, hlj⟩ := h k hlt j hj
    exact ⟨l, hl, by rwa [List.getD_append _ _ _ _ (by omega)]⟩
  · push_neg at hlt
    rw [List.getD_append_right _ _ _ _ hlt] at hj
    have hmem : ext.getD (k - emitted.length) 0 ∈ ext := by
      have hlen : k - emitted.length < ext.length := by omega
      rw [List.getD_eq_getElem _ _ hlen]
      exact List.getElem_mem _
    have hjE : j ∈ emitted := hext _ hmem j hj
    obtain ⟨l, hl, hlj⟩ := List.getElem_of_mem hjE
    refine ⟨l, by omega, ?_⟩
    rw [List.getD_append _ _ _ _ hl, List.getD_eq_getElem _ _ hl, hlj]

theorem sortLayer_perm (g : List FeatureNode) (layer : List Nat) :
    (sortLayer g layer).Perm layer :=
  sortBy_perm _ layer

theorem PeelInv.step {gB g : List FeatureNode} {current emitted : List Nat}
    (hGB : GraphOk gB) (hP : PeelInv gB g current emitted) :
    PeelInv gB (processLayer g current).1 (processLayer g current).2
      (emitted ++ sortLayer (processLayer g current).1 current) := by
  have hOut := processLayer_spec hGB hP
  have hperm : ∀ j, j ∈ sortLayer (processLayer g current).1 current ↔ j ∈ current :=
    fun j => (sortLayer_perm _ current).mem_iff
  have hmemE' : ∀ j, j ∈ emitted ++ sortLayer (processLayer g current).1 current ↔
      j ∈ emitted ∨ j ∈ current := by
    intro j
    rw [List.mem_append, hperm j]
  refine ⟨hOut.hlen, hOut.hfeat, hOut.hbef, ?_, hOut.hnodupAft, ?_, hOut.hnx,
    ?_, ?_, hOut.hnxLt, ?_, ?_, ?_⟩
  · intro i j
    rw [hOut.haft i j, hmemE' j]
    tauto
  · refine List.Nodup.append hP.hemNodup
      ((sortLayer_perm _ current).nodup_iff.mpr hP.hcurNodup) ?_
    intro a ha hb
    exact hP.hcurE a ((hperm a).mp hb) ha
  · intro i hi
    rw [hmemE' i]
    rintro (hE | hC)
    · exact hOut.hnxE i hi hE
    · exact hOut.hnxCur i hi hC
  · intro i hi
    apply List.eq_nil_iff_forall_not_mem.mpr
    intro j hj
    rw [hOut.haft i j] at hj
    rcases hOut.hnxAft i hi j hj.1 with hF | hF
    · exact hj.2.1 hF
    · exact hj.2.2 hF
  · intro i hi
    rw [hmemE' i] at hi
    rcases hi with hi | hi
    · exact hP.hemLt i hi
    · exact hP.hcurLt i hi
  · refine EmittedTopo_append hP.htopo ?_
    intro i hi j hj
    by_contra hjE
    have : j ∈ afterAt g i := (hP.haft i j).mpr ⟨hj, hjE⟩
    rw [hP.hcurAft i ((hperm i).mp hi)] at this
    exact List.not_mem_nil j this
  · intro i hi
    rcases hi with hi | hi
    · exact Or.inl (hOut.hnxNonIsland i hi)
    · rw [hmemE' i] at hi
      rcases hi with hi | hi
      · exact hP.hnoIsland i (Or.inr hi)
      · exact hP.hnoIsland i (Or.inl hi)

/-- What holds of the index sequence a peeling run emits. -/
def PeelResult (gB : List FeatureNode) (res : List Nat) : Prop :=
  res.Nodup ∧ (∀ i ∈ res, i < gB.length) ∧ EmittedTopo gB res ∧
    ∀ i ∈ res, afterAt gB i ≠ [] ∨ beforeAt gB i ≠ []

theorem peel_spec {gB : List FeatureNode} (hGB : GraphOk gB) :
    ∀ (fuel : Nat) (g : List FeatureNode) (current emitted : List Nat),
      PeelInv gB g current emitted → PeelResult gB (peel fuel g current emitted) := by
  intro fuel
  induction fuel with
  | zero =>
      intro g current emitted hP
      exact ⟨hP.hemNodup, hP.hemLt, hP.htopo,
        fun i hi => hP.hnoIsland i (Or.inr hi)⟩
  | succ n ih =>
      intro g current emitted hP
      rw [peel]
      by_cases hc : current.isEmpty
      · rw [if_pos hc]
        exact ⟨hP.hemNodup, hP.hemLt, hP.htopo,
          fun i hi => hP.hnoIsland i (Or.inr hi)⟩
      · rw [if_neg hc]
        exact ih _ _ _ (PeelInv.step hGB hP)

theorem nodup_lt_length_le {l : List Nat} {n : Nat} (hN : l.Nodup)
    (hlt : ∀ x ∈ l, x < n) : l.length ≤ n := by
  rw [← List.toFinset_card_of_nodup hN]
  have hsub : l.toFinset ⊆ Finset.range n := by
    intro x hx
    rw [List.mem_toFinset] at hx
    exact Finset.mem_range.mpr (hlt x hx)
  have := Finset.card_le_card hsub
  rwa [Finset.card_range] at this

theorem PeelInv.count_le {gB g : List FeatureNode} {current emitted : List Nat}
    (hP : PeelInv gB g current emitted) :
    emitted.length + current.length ≤ gB.length := by
  have hN : (emitted ++ current).Nodup := by
    refine List.Nodup.append hP.hemNodup hP.hcurNodup ?_
    intro a ha hb
    exact hP.hcurE a hb ha
  have hlt : ∀ x ∈ emitted ++ current, x < gB.length := by
    intro x hx
    rcases List.mem_append.mp hx with hx | hx
    · exact hP.hemLt x hx
    · exact hP.hcurLt x hx
  have := nodup_lt_length_le hN hlt
  rwa [List.length_append] at this

/-- Above the bound `gB.length + 1 - emitted.length`, the peeling result
does not depend on the fuel: from a reachable state, each iteration either
stops or emits at least one of the at most `gB.length` node positions, so
the loop always terminates within the bound and the fuel of
`orderedFeaturesOf` (`g.length + 1`) never truncates a run. -/
theorem peel_fuel_independent {gB : List FeatureNode} (hGB : GraphOk gB) :
    ∀ (fuel₁ fuel₂ : Nat) (g : List FeatureNode) (current emitted : List Nat),
      PeelInv gB g current emitted →
      gB.length - emitted.length < fuel₁ →
      gB.length - emitted.length < fuel₂ →
      peel fuel₁ g current emitted = peel fuel₂ g current emitted := by
  intro fuel₁
  induction fuel₁ with
  | zero =>
      intro fuel₂ g current emitted _ h1 _
      omega
  | succ n1 ih =>
      intro fuel₂ g current emitted hP h1 h2
      match fuel₂ with
      | 0 => omega
      | n2 + 1 =>
          rw [peel, peel]
          by_cases hc : current.isEmpty
          · rw [if_pos hc, if_pos hc]
          · rw [if_neg hc, if_neg hc]
            have hcur : current ≠ [] := fun hnil => by
              rw [hnil] at hc
              exact hc rfl
            have hclen : 1 ≤ current.length :=
              List.length_pos.mpr hcur
            have hbound := hP.count_le
            have hP' := PeelInv.step hGB hP
            have hlen' : (emitted ++ sortLayer (processLayer g current).1 current).length =
                emitted.length + current.length := by
              rw [List.length_append, (sortLayer_perm _ current).length_eq]
            refine ih n2 _ _ _ hP' ?_ ?_
            · rw [hlen']
              omega
            · rw [hlen']
              omega

/-! ## The emitted order of `computeInstallationOrder` -/

theorem mem_rootsOf {g : List FeatureNode} {i : Nat} :
    i ∈ rootsOf g ↔ i < g.length ∧ afterAt g i = [] ∧ beforeAt g i ≠ [] := by
  unfold rootsOf
  rw [List.mem_filter, List.mem_range]
  unfold afterAt beforeAt
  rw [Bool.and_eq_true, List.isEmpty_iff, Bool.not_eq_true',
    ← Bool.not_eq_true, List.isEmpty_iff]

theorem mem_islandsOf {g : List FeatureNode} {i : Nat} :
    i ∈ islandsOf g ↔ i < g.length ∧ afterAt g i = [] ∧ beforeAt g i = [] := by
  unfold islandsOf
  rw [List.mem_filter, List.mem_range]
  unfold afterAt beforeAt
  rw [Bool.and_eq_true, List.isEmpty_iff, List.isEmpty_iff]

theorem PeelInv_initial {gB : List FeatureNode} (hGB : GraphOk gB) :
    PeelInv gB gB (rootsOf gB) [] := by
  refine ⟨rfl, fun i => rfl, fun i => rfl, ?_, fun i => (hGB.2.2 i).1,
    List.nodup_nil, (List.nodup_range _).filter _, ?_, ?_, ?_, ?_, ?_, ?_⟩
  · intro i j
    simp
  · intro i _
    exact List.not_mem_nil i
  · intro i hi
    exact (mem_rootsOf.mp hi).2.1
  · intro i hi
    exact (mem_rootsOf.mp hi).1
  · intro i hi
    exact absurd hi (List.not_mem_nil i)
  · intro k hk
    simp at hk
  · intro i hi
    rcases hi with hi | hi
    · exact Or.inr (mem_rootsOf.mp hi).2.2
    · exact absurd hi (List.not_mem_nil i)

/-- The top-level fuel of the soft path is sufficient: any fuel at least
`g.length + 1` produces the same emission sequence. -/
theorem peel_fuel_sufficient (features : List FeatureSet) (fuel : Nat)
    (h : (builtGraph features).length + 1 ≤ fuel) :
    peel fuel (builtGraph features) (rootsOf (builtGraph features)) [] =
      peel ((builtGraph features).length + 1) (builtGraph features)
        (rootsOf (builtGraph features)) [] := by
  apply peel_fuel_independent (graphOk_builtGraph features)
  · exact PeelInv_initial (graphOk_builtGraph features)
  · simp
    omega
  · simp

/-- The node positions emitted by `computeInstallationOrder`, peeled
layers first, sorted islands last. -/
def orderedIdxOf (features : List FeatureSet) : List Nat :=
  peel ((builtGraph features).length + 1) (builtGraph features)
    (rootsOf (builtGraph features)) [] ++
    sortLayer (builtGraph features) (islandsOf (builtGraph features))

theorem orderedFeaturesOf_eq (features : List FeatureSet) :
    orderedFeaturesOf features =
      (orderedIdxOf features).map fun i => featureAt (builtGraph features) i := by
  unfold orderedFeaturesOf orderedIdxOf featureAt
  rw [List.map_append]

theorem peelPart_result (features : List FeatureSet) :
    PeelResult (builtGraph features)
      (peel ((builtGraph features).length + 1) (builtGraph features)
        (rootsOf (builtGraph features)) []) :=
  peel_spec (graphOk_builtGraph features) _ _ _ _
    (PeelInv_initial (graphOk_builtGraph features))

theorem orderedIdxOf_nodup (features : List FeatureSet) :
    (orderedIdxOf features).Nodup := by
  obtain ⟨hnodup, _, _, hni⟩ := peelPart_result features
  refine List.Nodup.append hnodup
    (((sortLayer_perm _ _).nodup_iff).mpr ((List.nodup_range _).filter _)) ?_
  intro a ha hb
  have hisland := mem_islandsOf.mp ((sortLayer_perm _ _).mem_iff.mp hb)
  rcases hni a ha with hF | hF
  · exact hF hisland.2.1
  · exact hF hisland.2.2

theorem orderedIdxOf_lt (features : List FeatureSet) :
    ∀ i ∈ orderedIdxOf features, i < (builtGraph features).length := by
  obtain ⟨_, hlt, _, _⟩ := peelPart_result features
  intro i hi
  rcases List.mem_append.mp hi with hi | hi
  · exact hlt i hi
  · exact (mem_islandsOf.mp ((sortLayer_perm _ _).mem_iff.mp hi)).1

/-- An edge of the built graph separates the emitted positions: the
`first` endpoint is emitted strictly before the `later` endpoint. -/
theorem orderedIdxOf_edge_precedes (features : List FeatureSet) {later first : Nat}
    (hedge : first ∈ afterAt (builtGraph features) later)
    (hlater : later ∈ orderedIdxOf features) :
    ∃ kF kL, kF < kL ∧ kL < (orderedIdxOf features).length ∧
      (orderedIdxOf features).getD kF 0 = first ∧
      (orderedIdxOf features).getD kL 0 = later := by
  obtain ⟨_, _, htopo, _⟩ := peelPart_result features
  set p := peel ((builtGraph features).length + 1) (builtGraph features)
    (rootsOf (builtGraph features)) [] with hp
  have hoi : orderedIdxOf features =
      p ++ sortLayer (builtGraph features) (islandsOf (builtGraph features)) := by
    rw [orderedIdxOf, ← hp]
  have hlaterp : later ∈ p := by
    rcases List.mem_append.mp hlater with hi | hi
    · exact hi
    · have := (mem_islandsOf.mp ((sortLayer_perm _ _).mem_iff.mp hi)).2.1
      rw [this] at hedge
      exact absurd hedge (List.not_mem_nil first)
  obtain ⟨kL, hkL, hkLe⟩ := List.getElem_of_mem hlaterp
  have hgetL : p.getD kL 0 = later := by
    rw [List.getD_eq_getElem _ _ hkL, hkLe]
  obtain ⟨kF, hkF, hkFe⟩ := htopo kL hkL first (by rwa [hgetL])
  refine ⟨kF, kL, hkF, ?_, ?_, ?_⟩
  · rw [hoi, List.length_append]
    omega
  · rw [hoi, List.getD_append _ _ _ _ (by omega)]
    exact hkFe
  · rw [hoi, List.getD_append _ _ _ _ hkL]
    exact hgetL

/-! ## Keys of the keyed descriptor map -/

theorem setPreservingOrder_keyed {m : List (String × FeatureSet)} {k : String}
    {v : FeatureSet} (hm : ∀ kv ∈ m, kv.1 = featureKey kv.2)
    (hk : k = featureKey v) :
    ∀ kv ∈ setPreservingOrder m k v, kv.1 = featureKey kv.2 := by
  unfold setPreservingOrder
  by_cases hc : m.any fun kv => kv.1 == k
  · rw [if_pos hc]
    intro kv hkv
    rw [List.mem_map] at hkv
    obtain ⟨kv0, hkv0, heq⟩ := hkv
    by_cases he : kv0.1 == k
    · rw [if_pos he] at heq
      rw [← heq]
      exact hk
    · rw [if_neg he] at heq
      rw [← heq]
      exact hm kv0 hkv0
  · rw [if_neg hc]
    intro kv hkv
    rcases List.mem_append.mp hkv with hkv | hkv
    · exact hm kv hkv
    · rw [List.mem_singleton] at hkv
      rw [hkv]
      exact hk

theorem buildNodesById_keyed (features : List FeatureSet) :
    ∀ kv ∈ buildNodesById features, kv.1 = featureKey kv.2 := by
  unfold buildNodesById
  apply foldl_preserve_mem
    (P := fun m : List (String × FeatureSet) => ∀ kv ∈ m, kv.1 = featureKey kv.2)
  · intro m f _ hm
    exact setPreservingOrder_keyed hm rfl
  · intro kv hkv
    exact absurd hkv (List.not_mem_nil kv)

theorem setPreservingOrder_keys (m : List (String × FeatureSet)) (k : String)
    (v : FeatureSet) :
    (setPreservingOrder m k v).map Prod.fst =
      if m.any fun kv => kv.1 == k then m.map Prod.fst
      else m.map Prod.fst ++ [k] := by
  unfold setPreservingOrder
  by_cases hc : m.any fun kv => kv.1 == k
  · rw [if_pos hc, if_pos hc, List.map_map]
    apply List.map_eq_map_iff.mpr
    intro kv _
    by_cases he : kv.1 == k
    · simp only [Function.comp_apply, if_pos he]
      exact (beq_iff_eq.mp he).symm
    · simp only [Function.comp_apply, if_neg he]
  · rw [if_neg hc, if_neg hc, List.map_append]
    rfl

theorem buildNodesById_keys_nodup (features : List FeatureSet) :
    ((buildNodesById features).map Prod.fst).Nodup := by
  unfold buildNodesById
  apply foldl_preserve_mem
    (P := fun m : List (String × FeatureSet) => (m.map Prod.fst).Nodup)
  · intro m f _ hm
    rw [setPreservingOrder_keys]
    by_cases hc : m.any fun kv => kv.1 == featureKey f
    · rwa [if_pos hc]
    · rw [if_neg hc]
      refine List.Nodup.append hm (List.nodup_singleton _) ?_
      intro a ha hb
      rw [List.mem_singleton] at hb
      subst hb
      rw [List.mem_map] at ha
      obtain ⟨kv, hkv, hfst⟩ := ha
      have hc' := List.any_eq_false.mp (Bool.not_eq_true _ |>.mp hc)
      exact hc' kv hkv (by rw [beq_iff_eq]; exact hfst)
  · exact List.nodup_nil

theorem graphKeys_nodup (features : List FeatureSet) :
    (graphKeys features).Nodup :=
  buildNodesById_keys_nodup features

theorem featureKey_rewriteFeature (f : FeatureSet) :
    featureKey (rewriteFeature f) = featureKey f := by
  unfold rewriteFeature
  by_cases h : f.sourceInformation.srcType == "oci"
      && !(f.feature0.legacyIds.getD []).isEmpty
  · rw [if_pos h]
    match f.sourceInformation.featureRef with
    | some ref => rfl
    | none => rfl
  · rw [if_neg h]

theorem graphKeys_aligned (features : List FeatureSet) (i : Nat)
    (hi : i < (graphFeatures features).length) :
    featureKey ((graphFeatures features).getD i default) =
      (graphKeys features).getD i "" := by
  have hlen : i < (buildNodesById features).length := by
    unfold graphFeatures at hi
    rwa [List.length_map] at hi
  have hmem : (buildNodesById features)[i] ∈ buildNodesById features :=
    List.getElem_mem hlen
  unfold graphFeatures graphKeys
  rw [List.getD_eq_getElem _ _ (by rwa [List.length_map]),
    List.getD_eq_getElem _ _ (by rwa [List.length_map]),
    List.getElem_map, List.getElem_map, featureKey_rewriteFeature]
  exact (buildNodesById_keyed features _ hmem).symm

theorem graphFeatures_inj (features : List FeatureSet) {i j : Nat}
    (hi : i < (graphFeatures features).length)
    (hj : j < (graphFeatures features).length)
    (heq : (graphFeatures features).getD i default =
      (graphFeatures features).getD j default) : i = j := by
  have hkeys : (graphKeys features).getD i "" = (graphKeys features).getD j "" := by
    rw [← graphKeys_aligned features i hi, ← graphKeys_aligned features j hj, heq]
  have hleni : i < (graphKeys features).length := by
    rwa [graphKeys_length]
  have hlenj : j < (graphKeys features).length := by
    rwa [graphKeys_length]
  rw [List.getD_eq_getElem _ _ hleni, List.getD_eq_getElem _ _ hlenj] at hkeys
  exact (List.Nodup.getElem_inj_iff (graphKeys_nodup features)).mp hkeys

theorem computeInstallationOrder_ok_iff (features : List FeatureSet)
    (order : List FeatureSet) :
    computeInstallationOrder features = .ok order ↔
      unresolvedKeys features = [] ∧ order = orderedFeaturesOf features := by
  unfold computeInstallationOrder
  by_cases h : (unresolvedKeys features).isEmpty
  · rw [if_pos h]
    rw [List.isEmpty_iff] at h
    simp [h, eq_comm]
  · rw [if_neg h]
    rw [List.isEmpty_iff] at h
    simp [h]

/-- On success every graph node position occurs in the emitted order. -/
theorem success_mem_orderedIdx (features : List FeatureSet)
    (hok : unresolvedKeys features = []) :
    ∀ i, i < (graphFeatures features).length → i ∈ orderedIdxOf features := by
  intro i hi
  have hleni : i < (graphKeys features).length := by rwa [graphKeys_length]
  have hk : (graphKeys features).getD i "" ∈ graphKeys features := by
    rw [List.getD_eq_getElem _ _ hleni]
    exact List.getElem_mem _
  have := List.filter_eq_nil_iff.mp hok _ hk
  rw [Bool.not_eq_true, List.all_eq_false] at this
  obtain ⟨f, hf, hfk⟩ := this
  rw [orderedFeaturesOf_eq, List.mem_map] at hf
  obtain ⟨i₀, hi₀, hfi₀⟩ := hf
  have hi₀lt : i₀ < (graphFeatures features).length := by
    have := orderedIdxOf_lt features i₀ hi₀
    rwa [(builtGraph_inv features).1] at this
  have hfeat : f = (graphFeatures features).getD i₀ default := by
    rw [← hfi₀, (builtGraph_inv features).2.1 i₀]
  have hkey : featureKey f = (graphKeys features).getD i "" := by
    have h1 := Bool.not_eq_true _ |>.mp hfk
    rwa [bne_eq_false_iff_eq] at h1
  have : (graphKeys features).getD i₀ "" = (graphKeys features).getD i "" := by
    rw [← graphKeys_aligned features i₀ hi₀lt, ← hfeat, hkey]
  have hleni₀ : i₀ < (graphKeys features).length := by rwa [graphKeys_length]
  rw [List.getD_eq_getElem _ _ hleni₀, List.getD_eq_getElem _ _ hleni] at this
  have : i₀ = i := (List.Nodup.getElem_inj_iff (graphKeys_nodup features)).mp this
  exact this ▸ hi₀

/-- A soft edge as declared and resolved by the source: node `later`
declares some `installsAfter` identifier that the three-stage lookup
resolves to node `first`. -/
def softEdgeResolved (features : List FeatureSet) (later first : Nat) : Prop :=
  later < (graphFeatures features).length ∧
  ∃ firstId ∈ (((graphFeatures features).getD later default).feature0.installsAfter).getD [],
    resolveInstallsAfter (graphKeys features) (graphFeatures features) firstId =
      some first

theorem orderedFeaturesOf_nodup (features : List FeatureSet) :
    (orderedFeaturesOf features).Nodup := by
  rw [orderedFeaturesOf_eq]
  apply (List.nodup_map_iff_inj_on (orderedIdxOf_nodup features)).mpr
  intro x hx y hy heq
  have hlen := (builtGraph_inv features).1
  have hx' : x < (graphFeatures features).length := by
    have := orderedIdxOf_lt features x hx
    omega
  have hy' : y < (graphFeatures features).length := by
    have := orderedIdxOf_lt features y hy
    omega
  rw [(builtGraph_inv features).2.1 x, (builtGraph_inv features).2.1 y] at heq
  exact graphFeatures_inj features hx' hy' heq

/-- Topological validity of the soft path: on success, the target of every
resolved `installsAfter` edge is emitted strictly before its source. -/
theorem computeInstallationOrder_topological {features order : List FeatureSet}
    {later first : Nat}
    (hok : computeInstallationOrder features = .ok order)
    (hedge : softEdgeResolved features later first) :
    (graphFeatures features).getD first default ∈ order ∧
    (graphFeatures features).getD later default ∈ order ∧
    order.indexOf ((graphFeatures features).getD first default) <
      order.indexOf ((graphFeatures features).getD later default) := by
  obtain ⟨hunres, horder⟩ := (computeInstallationOrder_ok_iff features order).mp hok
  obtain ⟨hlater, firstId, hdecl, hres⟩ := hedge
  have hfirst : first < (graphFeatures features).length :=
    resolveInstallsAfter_lt (graphKeys_length features) hres
  have hmemAft : first ∈ afterAt (builtGraph features) later :=
    builtGraph_mem_after features hlater hdecl hres
  have hlenB := (builtGraph_inv features).1
  have hlaterIdx : later ∈ orderedIdxOf features :=
    success_mem_orderedIdx features hunres later hlater
  obtain ⟨kF, kL, hklt, hkL, hgF, hgL⟩ :=
    orderedIdxOf_edge_precedes features hmemAft hlaterIdx
  have hnodup : order.Nodup := horder ▸ orderedFeaturesOf_nodup features
  have hlenOrder : order.length = (orderedIdxOf features).length := by
    rw [horder, orderedFeaturesOf_eq, List.length_map]
  have hkLo : kL < order.length := by omega
  have hkFo : kF < order.length := by omega
  have hkFm : kF < (orderedIdxOf features).length := by omega
  have hkLm : kL < (orderedIdxOf features).length := by omega
  have hgetF : order[kF] = (graphFeatures features).getD first default := by
    rw [List.getElem_of_eq horder hkFo,
      List.getElem_of_eq (orderedFeaturesOf_eq features) _, List.getElem_map,
      (builtGraph_inv features).2.1]
    congr 1
    rw [← hgF, List.getD_eq_getElem _ _ hkFm]
  have hgetL : order[kL] = (graphFeatures features).getD later default := by
    rw [List.getElem_of_eq horder hkLo,
      List.getElem_of_eq (orderedFeaturesOf_eq features) _, List.getElem_map,
      (builtGraph_inv features).2.1]
    congr 1
    rw [← hgL, List.getD_eq_getElem _ _ hkLm]
  refine ⟨?_, ?_, ?_⟩
  · rw [← hgetF]
    exact List.getElem_mem hkFo
  · rw [← hgetL]
    exact List.getElem_mem hkLo
  · have hiF : order.indexOf ((graphFeatures features).getD first default) = kF := by
      rw [← hgetF]
      exact List.indexOf_getElem hnodup kF hkFo
    have hiL : order.indexOf ((graphFeatures features).getD later default) = kL := by
      rw [← hgetL]
      exact List.indexOf_getElem hnodup kL hkLo
    omega

/-! ## Support lemmas for the override post-processor -/

/-- The features matched by the override identifiers, in override-list
order (`none` when some identifier matches nothing). -/
def overrideMatches (automaticOrder : List FeatureSet) :
    List String → Option (List FeatureSet)
  | [] => some []
  | featureId :: restIds =>
      match automaticOrder.find? (fun feature =>
          feature.sourceInformation.userFeatureIdWithoutVersion == featureId
            || feature.sourceInformation.userFeatureId == featureId) with
      | none => none
      | some feature =>
          (overrideMatches automaticOrder restIds).map (feature :: ·)

theorem spliceRemoveOne_sublist (l : List FeatureSet) (i : Int) :
    (spliceRemoveOne l i).Sublist l := by
  unfold spliceRemoveOne
  by_cases h : i < 0
  · rw [if_pos h]
    exact List.dropLast_sublist l
  · rw [if_neg h]
    exact List.eraseIdx_sublist l i.toNat

theorem overrideLoop_spec (automaticOrder : List FeatureSet) :
    ∀ (ids : List String) (arr ordered res : List FeatureSet),
      overrideLoop automaticOrder ids arr ordered = .ok res →
      ∃ matched rest, overrideMatches automaticOrder ids = some matched ∧
        res = ordered ++ matched ++ rest ∧ rest.Sublist arr := by
  intro ids
  induction ids with
  | nil =>
      intro arr ordered res h
      rw [overrideLoop] at h
      refine ⟨[], arr, rfl, ?_, List.Sublist.refl arr⟩
      simp only [Option.some.injEq, Except.ok.injEq] at h
      rw [← h]
      simp
  | cons featureId restIds ih =>
      intro arr ordered res h
      rw [overrideLoop] at h
      match hfind : automaticOrder.find? (fun feature =>
          feature.sourceInformation.userFeatureIdWithoutVersion == featureId
            || feature.sourceInformation.userFeatureId == featureId) with
      | none =>
          rw [hfind] at h
          simp at h
      | some feature =>
          rw [hfind] at h
          obtain ⟨matched, rest, hm, hres, hsub⟩ := ih _ _ _ h
          refine ⟨feature :: matched, rest, ?_, ?_, ?_⟩
          · rw [overrideMatches, hfind, hm]
            rfl
          · rw [hres]
            simp
          · exact hsub.trans (spliceRemoveOne_sublist arr _)

theorem spliceRemoveOne_of_mem {arr : List FeatureSet} {f : FeatureSet}
    (hf : f ∈ arr) :
    spliceRemoveOne arr (indexOfFeature arr f) = arr.erase f := by
  match hidx : arr.findIdx? (· == f) with
  | none =>
      rw [List.findIdx?_eq_none_iff] at hidx
      exact absurd (hidx f hf) (by simp)
  | some i =>
      obtain ⟨hilt, hieq⟩ := List.findIdx?_eq_some_iff_findIdx_eq.mp hidx
      have hIdxF : indexOfFeature arr f = (i : Int) := by
        unfold indexOfFeature
        rw [hidx]
      rw [hIdxF]
      unfold spliceRemoveOne
      rw [if_neg (by omega)]
      have htoNat : ((i : Int)).toNat = i := rfl
      rw [htoNat, ← hieq]
      exact List.eraseIdx_indexOf_eq_erase f arr

/-- When every override identifier matches a distinct feature that is
still present in the (duplicate-free) caller array, the loop removes each
matched feature exactly once and the result is duplicate-free. -/
theorem overrideLoop_nodup (automaticOrder : List FeatureSet) :
    ∀ (ids : List String) (arr ordered res matched : List FeatureSet),
      overrideLoop automaticOrder ids arr ordered = .ok res →
      overrideMatches automaticOrder ids = some matched →
      matched.Nodup → arr.Nodup → ordered.Nodup →
      (∀ f ∈ ordered, f ∉ arr) →
      (∀ f ∈ matched, f ∈ arr) →
      (∀ f ∈ matched, f ∉ ordered) →
      res.Nodup := by
  intro ids
  induction ids with
  | nil =>
      intro arr ordered res matched h _ _ harrN hordN hdisj _ _
      rw [overrideLoop] at h
      simp only [Except.ok.injEq] at h
      rw [← h]
      refine List.Nodup.append hordN harrN ?_
      intro a ha hb
      exact hdisj a ha hb
  | cons featureId restIds ih =>
      intro arr ordered res matched h hm hmN harrN hordN hdisj hsubm hmo
      rw [overrideLoop] at h
      rw [overrideMatches] at hm
      match hfind : automaticOrder.find? (fun feature =>
          feature.sourceInformation.userFeatureIdWithoutVersion == featureId
            || feature.sourceInformation.userFeatureId == featureId) with
      | none =>
          rw [hfind] at hm
          exact absurd hm (by simp)
      | some f =>
          rw [hfind] at h hm
          match hm' : overrideMatches automaticOrder restIds with
          | none => rw [hm'] at hm; exact absurd hm (by simp)
          | some matched' =>
              rw [hm'] at hm
              have hm2 : matched = f :: matched' := by
                have := hm
                simp only [Option.map] at this
                exact (Option.some.injEq _ _ |>.mp this).symm
              subst hm2
              have hfarr : f ∈ arr := hsubm f (List.mem_cons_self f matched')
              replace h : overrideLoop automaticOrder restIds
                  (spliceRemoveOne arr (indexOfFeature arr f)) (ordered ++ [f]) =
                  .ok res := h
              rw [spliceRemoveOne_of_mem hfarr] at h
              have hford : f ∉ ordered := hmo f (List.mem_cons_self f matched')
              have hfm' : f ∉ matched' := (List.nodup_cons.mp hmN).1
              refine ih (arr.erase f) (ordered ++ [f]) res matched' h hm'
                (List.nodup_cons.mp hmN).2 (List.Nodup.erase f harrN) ?_ ?_ ?_ ?_
              · refine List.Nodup.append hordN (List.nodup_singleton f) ?_
                intro a ha hb
                rw [List.mem_singleton] at hb
                exact absurd (hb ▸ ha) hford
              · intro g hg
                rcases List.mem_append.mp hg with hg | hg
                · intro hgarr
                  exact hdisj g hg ((List.erase_sublist f arr).mem hgarr)
                · rw [List.mem_singleton] at hg
                  subst hg
                  exact List.Nodup.not_mem_erase harrN
              · intro g hg
                have hgarr : g ∈ arr := hsubm g (List.mem_cons_of_mem f hg)
                have hgne : g ≠ f := fun hc => hfm' (hc ▸ hg)
                exact (List.mem_erase_of_ne hgne).mpr hgarr
              · intro g hg
                intro hin
                rcases List.mem_append.mp hin with hin | hin
                · exact hmo g (List.mem_cons_of_mem f hg) hin
                · rw [List.mem_singleton] at hin
                  exact hfm' (hin ▸ hg)

/-! ## Support lemmas for the error paths -/

theorem computeInstallationOrder_error_iff (features : List FeatureSet)
    (e : String) :
    computeInstallationOrder features = .error e ↔
      unresolvedKeys features ≠ [] ∧
        e = "Features declare cyclic dependency: "
          ++ String.intercalate ", " (unresolvedKeys features) := by
  unfold computeInstallationOrder
  by_cases h : (unresolvedKeys features).isEmpty
  · rw [if_pos h]
    rw [List.isEmpty_iff] at h
    simp [h]
  · rw [if_neg h]
    rw [List.isEmpty_iff] at h
    simp [h, eq_comm]

theorem computeDependsOnRounds_error :
    ∀ fuel worklist installed e,
      computeDependsOnRounds fuel worklist installed = some (.error e) →
      e = "Circular dependency detected" := by
  intro fuel
  induction fuel with
  | zero =>
      intro worklist installed e h
      match worklist with
      | [] => simp [computeDependsOnRounds] at h
      | _ :: _ => simp [computeDependsOnRounds] at h
  | succ n ih =>
      intro worklist installed e h
      match worklist with
      | [] => simp [computeDependsOnRounds] at h
      | w :: ws =>
          rw [computeDependsOnRounds] at h
          by_cases hr : (readyRound installed (w :: ws)).isEmpty
          · simp only [hr, if_pos] at h
            simp at h
            exact h.symm
          · simp only [hr, if_neg, Bool.false_eq_true, not_false_iff] at h
            exact ih _ _ _ h

theorem computeDependsOnInstallationOrder_error {worklist : List FNode}
    {e : String} (h : computeDependsOnInstallationOrder worklist = .error e) :
    e = "Circular dependency detected" := by
  have heq := computeDependsOnInstallationOrder_eq worklist
  rw [h] at heq
  exact computeDependsOnRounds_error _ _ _ _ heq

/-! ## Support lemmas for the key collapse -/

theorem setPreservingOrder_keys_mem (m : List (String × FeatureSet)) (k : String)
    (v : FeatureSet) (k' : String) :
    k' ∈ (setPreservingOrder m k v).map Prod.fst ↔
      k' ∈ m.map Prod.fst ∨ k' = k := by
  rw [setPreservingOrder_keys]
  by_cases hc : m.any fun kv => kv.1 == k
  · rw [if_pos hc]
    constructor
    · exact Or.inl
    · rintro (hm | rfl)
      · exact hm
      · rw [List.any_eq_true] at hc
        obtain ⟨kv, hkv, he⟩ := hc
        rw [beq_iff_eq] at he
        rw [← he]
        exact List.mem_map_of_mem Prod.fst hkv
  · rw [if_neg hc, List.mem_append, List.mem_singleton]

theorem buildNodesById_keys_mem (features : List FeatureSet) :
    ∀ k, k ∈ graphKeys features ↔ k ∈ features.map featureKey := by
  have main : ∀ (fs : List FeatureSet) (m : List (String × FeatureSet)) (k : String),
      k ∈ (fs.foldl (fun m f => setPreservingOrder m (featureKey f) f) m).map Prod.fst ↔
        k ∈ m.map Prod.fst ∨ k ∈ fs.map featureKey := by
    intro fs
    induction fs with
    | nil =>
        intro m k
        simp
    | cons f t ih =>
        intro m k
        rw [List.foldl_cons, ih, setPreservingOrder_keys_mem]
        simp only [List.map_cons, List.mem_cons]
        tauto
  intro k
  have := main features [] k
  unfold graphKeys buildNodesById
  rw [this]
  simp

theorem orderedFeaturesOf_length_keys (features : List FeatureSet)
    (hok : unresolvedKeys features = []) :
    (orderedFeaturesOf features).length = (graphKeys features).length := by
  rw [orderedFeaturesOf_eq, List.length_map]
  have hsub : ∀ i ∈ orderedIdxOf features, i ∈ List.range (graphKeys features).length := by
    intro i hi
    rw [List.mem_range, graphKeys_length]
    have := orderedIdxOf_lt features i hi
    rwa [(builtGraph_inv features).1] at this
  have hsup : ∀ i ∈ List.range (graphKeys features).length, i ∈ orderedIdxOf features := by
    intro i hi
    rw [List.mem_range, graphKeys_length] at hi
    exact success_mem_orderedIdx features hok i hi
  have hperm : (orderedIdxOf features).Perm (List.range (graphKeys features).length) := by
    apply List.Subperm.antisymm
    · exact (List.subperm_ext_iff).mpr fun a ha => by
        rw [List.count_eq_one_of_mem (List.nodup_range _) (hsub a ha)]
        have := List.count_eq_one_of_mem (orderedIdxOf_nodup features) ha
        omega
    · exact (List.subperm_ext_iff).mpr fun a ha => by
        rw [List.count_eq_one_of_mem (orderedIdxOf_nodup features) (hsup a ha)]
        have := List.count_eq_one_of_mem (List.nodup_range _) ha
        omega
  rw [hperm.length_eq, List.length_range]

theorem graphKeys_length_distinct (features : List FeatureSet) :
    (graphKeys features).length = (features.map featureKey).toFinset.card := by
  rw [← List.toFinset_card_of_nodup (graphKeys_nodup features)]
  congr 1
  apply Finset.ext
  intro k
  rw [List.mem_toFinset, List.mem_toFinset]
  exact buildNodesById_keys_mem features k

/-! ## Support lemmas for the in-place mutation -/

theorem rewriteFeature_sourceInformation (f : FeatureSet) :
    (rewriteFeature f).sourceInformation = f.sourceInformation := by
  unfold rewriteFeature
  by_cases h : f.sourceInformation.srcType == "oci"
      && !(f.feature0.legacyIds.getD []).isEmpty
  · rw [if_pos h]
    match f.sourceInformation.featureRef with
    | some ref => rfl
    | none => rfl
  · rw [if_neg h]

theorem rewriteFeature_installsAfter (f : FeatureSet) :
    (rewriteFeature f).feature0.installsAfter = f.feature0.installsAfter := by
  unfold rewriteFeature
  by_cases h : f.sourceInformation.srcType == "oci"
      && !(f.feature0.legacyIds.getD []).isEmpty
  · rw [if_pos h]
    match f.sourceInformation.featureRef with
    | some ref => rfl
    | none => rfl
  · rw [if_neg h]

theorem rewriteFeature_eq_self {f : FeatureSet}
    (h : ¬(f.sourceInformation.srcType = "oci" ∧
      (f.feature0.legacyIds.getD []) ≠ [] ∧ f.sourceInformation.featureRef ≠ none)) :
    rewriteFeature f = f := by
  unfold rewriteFeature
  by_cases hc : f.sourceInformation.srcType == "oci"
      && !(f.feature0.legacyIds.getD []).isEmpty
  · rw [if_pos hc]
    rw [Bool.and_eq_true, beq_iff_eq, Bool.not_eq_true', List.isEmpty_eq_false] at hc
    match href : f.sourceInformation.featureRef with
    | some ref => exact absurd ⟨hc.1, hc.2, by rw [href]; exact fun hcon => Option.noConfusion hcon⟩ h
    | none => rfl
  · rw [if_neg hc]

theorem mutateFeaturesInPlace_length (features : List FeatureSet) :
    (mutateFeaturesInPlace features).length = features.length := by
  unfold mutateFeaturesInPlace
  rw [List.length_map, List.length_range]

theorem mutateFeaturesInPlace_getD (features : List FeatureSet) (p : Nat)
    (hp : p < features.length) :
    (mutateFeaturesInPlace features).getD p default =
      if isLastWithKey features p then rewriteFeature (features.getD p default)
      else features.getD p default := by
  unfold mutateFeaturesInPlace
  rw [List.getD_eq_getElem _ _ (by rw [List.length_map, List.length_range]; exact hp),
    List.getElem_map, List.getElem_range]

theorem mutateFeaturesInPlace_eq_self (features : List FeatureSet)
    (h : ∀ f ∈ features, ¬(f.sourceInformation.srcType = "oci" ∧
      (f.feature0.legacyIds.getD []) ≠ [] ∧ f.sourceInformation.featureRef ≠ none)) :
    mutateFeaturesInPlace features = features := by
  apply List.ext_getElem (mutateFeaturesInPlace_length features)
  intro i hi hi'
  have hgd := mutateFeaturesInPlace_getD features i hi'
  rw [List.getD_eq_getElem _ _ hi, List.getD_eq_getElem _ _ hi'] at hgd
  rw [hgd]
  by_cases hl : isLastWithKey features i
  · rw [if_pos hl, rewriteFeature_eq_self (h _ (List.getElem_mem hi'))]
  · rw [if_neg hl]

/-! ## Half-inverse preservation during peeling -/

theorem processLayer_before_eq (g : List FeatureNode) (current : List Nat) :
    ∀ i, beforeAt (processLayer g current).1 i = beforeAt g i := by
  rw [processLayer_eq]
  refine foldl_preserve_mem
    (P := fun st : List FeatureNode × List Nat => ∀ i, beforeAt st.1 i = beforeAt g i)
    _ current ?_ (g, []) (fun i => rfl)
  intro st first _ hst
  refine foldl_preserve_mem
    (P := fun st : List FeatureNode × List Nat => ∀ i, beforeAt st.1 i = beforeAt g i)
    _ _ ?_ st hst
  intro st' later _ hst' i
  unfold peelInnerStep
  by_cases hc : (nodeAt (eraseAfter st'.1 later first) later).after.isEmpty
  · rw [if_pos hc]
    rw [show ((eraseAfter st'.1 later first, st'.2 ++ [later]) :
      List FeatureNode × List Nat).1 = eraseAfter st'.1 later first from rfl,
      beforeAt_eraseAfter]
    exact hst' i
  · rw [if_neg hc]
    rw [show ((eraseAfter st'.1 later first, st'.2) :
      List FeatureNode × List Nat).1 = eraseAfter st'.1 later first from rfl,
      beforeAt_eraseAfter]
    exact hst' i

theorem processLayer_after_subset (g : List FeatureNode) (current : List Nat) :
    ∀ i j, j ∈ afterAt (processLayer g current).1 i → j ∈ afterAt g i := by
  rw [processLayer_eq]
  refine foldl_preserve_mem
    (P := fun st : List FeatureNode × List Nat =>
      ∀ i j, j ∈ afterAt st.1 i → j ∈ afterAt g i)
    _ current ?_ (g, []) (fun i j h => h)
  intro st first _ hst
  refine foldl_preserve_mem
    (P := fun st : List FeatureNode × List Nat =>
      ∀ i j, j ∈ afterAt st.1 i → j ∈ afterAt g i)
    _ _ ?_ st hst
  intro st' later _ hst' i j hj
  apply hst' i j
  have haux : ∀ (b : List FeatureNode × List Nat), b.1 = eraseAfter st'.1 later first →
      j ∈ afterAt b.1 i → j ∈ afterAt st'.1 i := by
    intro b hb hmem
    rw [hb, afterAt_eraseAfter] at hmem
    by_cases hcnd : i = later ∧ i < st'.1.length
    · rw [if_pos hcnd] at hmem
      exact (List.erase_sublist first (afterAt st'.1 i)).mem hmem
    · rwa [if_neg hcnd] at hmem
  unfold peelInnerStep at hj
  by_cases hc : (nodeAt (eraseAfter st'.1 later first) later).after.isEmpty
  · rw [if_pos hc] at hj
    exact haux _ rfl hj
  · rw [if_neg hc] at hj
    exact haux _ rfl hj

/-! ## Concrete fixtures used by counterexamples and witnesses -/

def fsA : FeatureSet := ⟨⟨"", "a", "a", none⟩, ⟨none, none, none⟩⟩

def fsB : FeatureSet := ⟨⟨"", "b", "b", none⟩, ⟨none, none, none⟩⟩

def fsC : FeatureSet := ⟨⟨"", "c", "c", none⟩, ⟨none, none, none⟩⟩

def fsAafterB : FeatureSet := ⟨⟨"", "a", "a", none⟩, ⟨none, none, some ["b"]⟩⟩

def fsBafterA : FeatureSet := ⟨⟨"", "b", "b", none⟩, ⟨none, none, some ["a"]⟩⟩

def fsOciLegacy : FeatureSet :=
  ⟨⟨"oci", "b", "b", some ⟨"r", "n"⟩⟩, ⟨some ["old"], none, none⟩⟩

def fsAafterLegacy : FeatureSet := ⟨⟨"", "a", "a", none⟩, ⟨none, none, some ["r/n/old"]⟩⟩

def fsX1 : FeatureSet := ⟨⟨"", "x:1", "x", none⟩, ⟨none, none, none⟩⟩

def fsX2 : FeatureSet := ⟨⟨"", "x:2", "x", none⟩, ⟨none, none, none⟩⟩

def chainA : FNode := .mk "a" none [.mk "b" none []]

def chainB : FNode := .mk "b" none [.mk "c" none []]

def chainC : FNode := .mk "c" none []

def cycX : FNode := .mk "x" none [.mk "q" none []]

def cycQ : FNode := .mk "q" none [.mk "x" none []]

/-- The identifiers of an installation-order result (or the error text). -/
def exceptIds : Except String (List FeatureSet) → List String
  | .ok l => l.map fun f => f.sourceInformation.userFeatureId
  | .error e => [e]

/-! ## The claims -/

/-- Claim C1: for every input without cycles (formalized: whenever the
computation succeeds), the computed installation order respects every
declared edge — if feature A declares installs-after B on the soft path
(`computeInstallationOrder`), or node A depends-on node B on the hard path
(`computeDependsOnInstallationOrder`), then B's position in the output
strictly precedes A's (on the hard path, via a structurally equal
representative). -/
theorem claim_C1_topological_validity :
    (∀ (features order : List FeatureSet) (later first : Nat),
      computeInstallationOrder features = .ok order →
      softEdgeResolved features later first →
      (graphFeatures features).getD first default ∈ order ∧
      (graphFeatures features).getD later default ∈ order ∧
      order.indexOf ((graphFeatures features).getD first default) <
        order.indexOf ((graphFeatures features).getD later default)) ∧
    (∀ (worklist order : List FNode) (i : Nat) (dep : FNode),
      computeDependsOnInstallationOrder worklist = .ok order →
      i < order.length → dep ∈ (order.getD i default).dependsOn →
      ∃ j, j < i ∧ fNodeEquality (order.getD j default) dep = true) := by
  constructor
  · intro features order later first hok hedge
    exact computeInstallationOrder_topological hok hedge
  · intro worklist order i dep hok hi hdep
    have heq := computeDependsOnInstallationOrder_eq worklist
    rw [hok] at heq
    exact computeDependsOnRounds_topological _ _ _ _ depsSatisfiedAt_nil heq
      i hi dep hdep

theorem claim_C1_topological_validity_witness :
    ((graphFeatures [fsAafterB, fsB]).getD 1 default ∈ [fsB, fsAafterB] ∧
     (graphFeatures [fsAafterB, fsB]).getD 0 default ∈ [fsB, fsAafterB] ∧
     [fsB, fsAafterB].indexOf ((graphFeatures [fsAafterB, fsB]).getD 1 default) <
       [fsB, fsAafterB].indexOf ((graphFeatures [fsAafterB, fsB]).getD 0 default)) ∧
    (∃ j, j < 2 ∧
      fNodeEquality ([chainC, chainB, chainA].getD j default)
        (FNode.mk "b" none []) = true) :=
  ⟨claim_C1_topological_validity.1 [fsAafterB, fsB] [fsB, fsAafterB] 0 1 (by rfl)
      (by unfold softEdgeResolved; decide),
   claim_C1_topological_validity.2 [chainA, chainB, chainC] [chainC, chainB, chainA]
      2 (FNode.mk "b" none []) (by rfl) (by decide)
      (by show FNode.mk "b" none [] ∈ [FNode.mk "b" none []]
          exact List.mem_singleton.mpr rfl)⟩

/-- Counterexample to claim C2 as stated: with override list
`["c", "c"]` on features `{a, b, c}`, `computeOverrideInstallationOrder`
returns `[c, c, a]` — the entry `c` is duplicated (and `b` is lost to the
`splice(-1, 1)` of the second failed `indexOf`). -/
theorem claim_C2_counterexample :
    computeOverrideInstallationOrder ["c", "c"] [fsA, fsB, fsC] =
      .ok [fsC, fsC, fsA] ∧ ¬ ([fsC, fsC, fsA] : List FeatureSet).Nodup :=
  ⟨by rfl, by decide⟩

/-- Claim C2 (amended): the output of the automatic soft path contains no
duplicates, the hard path's graph builder collapses structurally equal
(id, options) nodes discovered via different paths to a single entry, and
the hard path's scheduler keeps a duplicate-free worklist duplicate-free.
For `computeOverrideInstallationOrder` the guarantee is conditional: it
holds when the features matched by the override identifiers are pairwise
distinct and still present in the duplicate-free caller array — an
override list that repeats an identifier duplicates an entry instead (see
the counterexample). -/
theorem claim_C2_no_duplicates :
    (∀ features order, computeInstallationOrder features = .ok order →
      order.Nodup) ∧
    (∀ (p : BuildParams) fuel worklist trace trace' acc,
      buildDependencyGraphLoop p fuel worklist [] trace =
        (trace', some (.ok acc)) →
      acc.Pairwise fun a b => fNodeEquality a b = false) ∧
    (∀ worklist order,
      worklist.Pairwise (fun a b => fNodeEquality a b = false) →
      computeDependsOnInstallationOrder worklist = .ok order →
      order.Pairwise fun a b => fNodeEquality a b = false) ∧
    (∀ ids features res matched,
      computeOverrideInstallationOrder ids features = .ok res →
      overrideMatches (orderedFeaturesOf features) ids = some matched →
      matched.Nodup → (mutateFeaturesInPlace features).Nodup →
      (∀ f ∈ matched, f ∈ mutateFeaturesInPlace features) →
      res.Nodup) := by
  refine ⟨?_, ?_, ?_, ?_⟩
  · intro features order hok
    rw [((computeInstallationOrder_ok_iff features order).mp hok).2]
    exact orderedFeaturesOf_nodup features
  · intro p fuel worklist trace trace' acc h
    exact buildDependencyGraphLoop_pairwise p fuel worklist [] trace trace' acc
      List.Pairwise.nil h
  · intro worklist order hpw hok
    have heq := computeDependsOnInstallationOrder_eq worklist
    rw [hok] at heq
    exact computeDependsOnRounds_pairwise _ _ _ _ hpw List.Pairwise.nil
      (fun a ha => absurd ha (List.not_mem_nil a)) heq
  · intro ids features res matched h hm hmN harrN hsubm
    unfold computeOverrideInstallationOrder computeInstallationOrderFull at h
    match hauto : computeInstallationOrder features with
    | .error e =>
        rw [hauto] at h
        simp at h
    | .ok auto =>
        rw [hauto] at h
        have hauto' : auto = orderedFeaturesOf features :=
          ((computeInstallationOrder_ok_iff features auto).mp hauto).2
        refine overrideLoop_nodup auto ids (mutateFeaturesInPlace features) [] res
          matched h (hauto' ▸ hm) hmN harrN List.nodup_nil ?_ hsubm ?_
        · intro f hf
          exact absurd hf (List.not_mem_nil f)
        · intro f _ hf
          exact absurd hf (List.not_mem_nil f)

theorem claim_C2_no_duplicates_witness :
    ([fsA] : List FeatureSet).Nodup ∧
    List.Pairwise (fun a b => fNodeEquality a b = false) [FNode.mk "a" none []] ∧
    List.Pairwise (fun a b => fNodeEquality a b = false) [chainC] ∧
    ([fsC, fsA, fsB] : List FeatureSet).Nodup :=
  ⟨claim_C2_no_duplicates.1 [fsA] [fsA] (by rfl),
   claim_C2_no_duplicates.2.1 ⟨fun id => some id, fun _ => some ⟨none⟩⟩ 1
      [FNode.mk "a" none []] [] ["a"] [FNode.mk "a" none []] (by rfl),
   claim_C2_no_duplicates.2.2.1 [chainC] [chainC] (by decide) (by rfl),
   claim_C2_no_duplicates.2.2.2 ["c"] [fsA, fsB, fsC] [fsC, fsA, fsB] [fsC]
      (by rfl) (by rfl) (by decide) (by decide) (by decide)⟩

/-- Counterexample to claim C3 as stated: for input collection
`[b, a, c]` (whose automatic order is `[a, b, c]`) and override list
`["c"]`, the code returns `[c, b, a]` — the remaining features follow in
the caller's input order, not in the automatic order `[a, b]` of the
remaining set. -/
theorem claim_C3_counterexample :
    computeOverrideInstallationOrder ["c"] [fsB, fsA, fsC] = .ok [fsC, fsB, fsA] ∧
    computeInstallationOrder [fsB, fsA] = .ok [fsA, fsB] ∧
    ([fsC, fsB, fsA] : List FeatureSet) ≠ [fsC] ++ [fsA, fsB] :=
  ⟨by rfl, by rfl, by decide⟩

/-- Claim C3 (amended): `computeOverrideInstallationOrder` returns, for
each identifier in the override list in sequence, the first feature of the
automatic order matching by `userFeatureIdWithoutVersion` or
`userFeatureId`; the remaining features follow in the caller's input-array
order (an order-preserving subsequence of the mutated input array), not in
the automatic order of the remaining set.  When the input collection is
already in automatic order, the documented example holds: features
{a, b, c} with override `["c"]` yield `[c, a, b]`. -/
theorem claim_C3_override_order :
    (∀ ids features res,
      computeOverrideInstallationOrder ids features = .ok res →
      ∃ matched rest,
        overrideMatches (orderedFeaturesOf features) ids = some matched ∧
        res = matched ++ rest ∧ rest.Sublist (mutateFeaturesInPlace features)) ∧
    computeOverrideInstallationOrder ["c"] [fsA, fsB, fsC] =
      .ok [fsC, fsA, fsB] := by
  constructor
  · intro ids features res h
    unfold computeOverrideInstallationOrder computeInstallationOrderFull at h
    match hauto : computeInstallationOrder features with
    | .error e =>
        rw [hauto] at h
        simp at h
    | .ok auto =>
        rw [hauto] at h
        obtain ⟨matched, rest, hm, hres, hsub⟩ :=
          overrideLoop_spec auto ids (mutateFeaturesInPlace features) [] res h
        have hauto' : auto = orderedFeaturesOf features :=
          ((computeInstallationOrder_ok_iff features auto).mp hauto).2
        exact ⟨matched, rest, hauto' ▸ hm, by simpa using hres, hsub⟩
  · rfl

theorem claim_C3_override_order_witness :
    ∃ matched rest,
      overrideMatches (orderedFeaturesOf [fsA, fsB, fsC]) ["c"] = some matched ∧
      ([fsC, fsA, fsB] : List FeatureSet) = matched ++ rest ∧
      rest.Sublist (mutateFeaturesInPlace [fsA, fsB, fsC]) :=
  claim_C3_override_order.1 ["c"] [fsA, fsB, fsC] [fsC, fsA, fsB] (by rfl)

/-- Counterexample to claim C4 as stated: calling
`computeInstallationOrder` a second time on the same descriptor collection
(whose legacy ids and current id were registry-prefixed in place by the
first call) does not reproduce the first order.  The first call orders
`[b, a]` (via the legacy-id edge `a installs-after r/n/old`); the second
call prefixes the legacy ids again, the edge no longer resolves, and the
islands are emitted lexicographically as `[a, b]`. -/
theorem claim_C4_counterexample :
    exceptIds (computeInstallationOrderFull [fsOciLegacy, fsAafterLegacy]).2 =
      ["b", "a"] ∧
    exceptIds (computeInstallationOrderFull
      (computeInstallationOrderFull [fsOciLegacy, fsAafterLegacy]).1).2 =
      ["a", "b"] ∧
    (["b", "a"] : List String) ≠ ["a", "b"] :=
  ⟨by rfl, by rfl, by decide⟩

/-- Claim C4 (amended): the order computation is a pure function of its
input — running it twice on identical input values (same identifiers,
options and edges) yields identical output — but a second call on the
same collection mutated in place by the first call receives a different
input and may produce a different order (see the counterexample). -/
theorem claim_C4_determinism :
    ∀ features features' : List FeatureSet, features = features' →
      computeInstallationOrderFull features = computeInstallationOrderFull features' :=
  fun _ _ h => congrArg computeInstallationOrderFull h

theorem claim_C4_determinism_witness :
    computeInstallationOrderFull [fsA] = computeInstallationOrderFull [fsA] :=
  claim_C4_determinism [fsA] [fsA] rfl

/-- Counterexample to claim C5 as stated: two nodes with equal ids whose
options records contain the same key/value pairs in different key
insertion orders are *not* `fNodeEquality`-equal, because `JSON.stringify`
serializes record fields in insertion order. -/
theorem claim_C5_counterexample :
    fNodeEquality
      (FNode.mk "f" (some (.record [("a", .str "1"), ("b", .str "2")])) [])
      (FNode.mk "f" (some (.record [("b", .str "2"), ("a", .str "1")])) []) = false ∧
    (FNode.mk "f" (some (.record [("a", .str "1"), ("b", .str "2")])) []).id =
      (FNode.mk "f" (some (.record [("b", .str "2"), ("a", .str "1")])) []).id ∧
    List.Perm [("a", JPrim.str "1"), ("b", JPrim.str "2")]
      [("b", JPrim.str "2"), ("a", JPrim.str "1")] :=
  ⟨by decide, by decide, by decide⟩

/-- Claim C5 (amended): `fNodeEquality a b` holds iff the identifiers are
equal and the options values serialize to the same JSON text (both being
`undefined` also counts as equal); the serialization emits record fields
in insertion order, so equal mappings in different key orders are not
structurally equal. -/
theorem claim_C5_structural_equality :
    ∀ a b : FNode,
      fNodeEquality a b = true ↔
        a.id = b.id ∧ jsonStringifyOpt a.options = jsonStringifyOpt b.options :=
  fNodeEquality_iff

/-- Counterexample to claim C6 as stated: on the hard path a circular
dependency raises the constant error `Circular dependency detected`; the
identifiers of the offending nodes (`x` and `q`) are not part of the
error payload (they go to the log only). -/
theorem claim_C6_counterexample :
    computeDependsOnInstallationOrder [cycX, cycQ] =
      .error "Circular dependency detected" ∧
    ("Circular dependency detected".toList.all
      fun c => c != 'x' && c != 'q') = true :=
  ⟨by rfl, by rfl⟩

/-- Claim C6 (amended): when peeling or round-scheduling terminates with
nodes left unresolved the computation fails with a circular-dependency
error; on the soft path the payload lists the keys of the unresolved
nodes (`Features declare cyclic dependency: <keys>`), while on the hard
path the payload is the constant `Circular dependency detected` (the
offending identifiers are only written to the log). -/
theorem claim_C6_circular_error :
    (∀ features e,
      computeInstallationOrder features = .error e ↔
        unresolvedKeys features ≠ [] ∧
        e = "Features declare cyclic dependency: "
          ++ String.intercalate ", " (unresolvedKeys features)) ∧
    (∀ worklist e, computeDependsOnInstallationOrder worklist = .error e →
      e = "Circular dependency detected") := by
  constructor
  · exact computeInstallationOrder_error_iff
  · intro worklist e h
    exact computeDependsOnInstallationOrder_error h

theorem claim_C6_circular_error_witness :
    ("Circular dependency detected" = "Circular dependency detected") ∧
    (unresolvedKeys [fsAafterB, fsBafterA] ≠ [] ∧
      "Features declare cyclic dependency: a, b" =
        "Features declare cyclic dependency: "
          ++ String.intercalate ", " (unresolvedKeys [fsAafterB, fsBafterA])) :=
  ⟨claim_C6_circular_error.2 [cycX, cycQ] "Circular dependency detected" (by rfl),
   (claim_C6_circular_error.1 [fsAafterB, fsBafterA]
      "Features declare cyclic dependency: a, b").mp (by rfl)⟩

/-- Counterexample to claim C7 as stated: of two descriptors sharing the
key `x` (`x:1` and `x:2`), only the later one survives the keyed mapping
and becomes a graph node; the earlier one does not appear in the
output. -/
theorem claim_C7_counterexample :
    computeInstallationOrder [fsX1, fsX2] = .ok [fsX2] ∧
    fsX1 ∉ ([fsX2] : List FeatureSet) :=
  ⟨by rfl, by decide⟩

/-- Claim C7 (amended): later descriptors with the same key overwrite
earlier ones in the keyed mapping, and only the mapping's values — the
last descriptor per key — are processed as graph nodes: on success the
output has exactly one entry per distinct key, and every output entry is
one of the (rewritten) surviving descriptors. -/
theorem claim_C7_key_collapse :
    ∀ features order, computeInstallationOrder features = .ok order →
      order.length = (features.map featureKey).toFinset.card ∧
      ∀ f ∈ order, f ∈ graphFeatures features := by
  intro features order hok
  obtain ⟨hunres, horder⟩ := (computeInstallationOrder_ok_iff features order).mp hok
  constructor
  · rw [horder, orderedFeaturesOf_length_keys features hunres,
      graphKeys_length_distinct]
  · intro f hf
    rw [horder, orderedFeaturesOf_eq, List.mem_map] at hf
    obtain ⟨i, hi, hfi⟩ := hf
    have hilt : i < (graphFeatures features).length := by
      have := orderedIdxOf_lt features i hi
      rwa [(builtGraph_inv features).1] at this
    rw [← hfi, (builtGraph_inv features).2.1 i,
      List.getD_eq_getElem _ _ hilt]
    exact List.getElem_mem hilt

theorem claim_C7_key_collapse_witness :
    ([fsX2] : List FeatureSet).length =
      (([fsX1, fsX2].map featureKey).toFinset).card ∧
    fsX2 ∈ graphFeatures [fsX1, fsX2] :=
  ⟨(claim_C7_key_collapse [fsX1, fsX2] [fsX2] (by rfl)).1,
   (claim_C7_key_collapse [fsX1, fsX2] [fsX2] (by rfl)).2 fsX2
      (List.mem_singleton.mpr rfl)⟩

/-- Counterexample to claim C8 as stated: `computeInstallationOrder`
mutates the caller's descriptors — for an `oci` descriptor with legacy
ids, the call leaves the caller's array changed in place (its
`legacyIds` and `currentId` are registry-prefixed). -/
theorem claim_C8_counterexample :
    (computeInstallationOrderFull [fsOciLegacy]).1 ≠ [fsOciLegacy] := by
  decide

/-- Claim C8 (amended): the engine's only mutation of caller state is the
legacy-id normalization: the caller's collection keeps its length, every
descriptor keeps its `sourceInformation` and its `installsAfter` list,
and when no descriptor is an `oci` descriptor with a non-empty legacy-id
list and a feature ref, the caller's collection is left entirely
unchanged.  (For surviving `oci` descriptors with legacy ids,
`legacyIds`/`currentId` are rewritten in place, as the counterexample
shows.) -/
theorem claim_C8_mutation_frame :
    (∀ features : List FeatureSet,
      (computeInstallationOrderFull features).1.length = features.length) ∧
    (∀ (features : List FeatureSet) (p : Nat), p < features.length →
      ((computeInstallationOrderFull features).1.getD p default).sourceInformation =
        (features.getD p default).sourceInformation ∧
      ((computeInstallationOrderFull features).1.getD p default).feature0.installsAfter =
        (features.getD p default).feature0.installsAfter) ∧
    (∀ features : List FeatureSet,
      (∀ f ∈ features, ¬(f.sourceInformation.srcType = "oci" ∧
        (f.feature0.legacyIds.getD []) ≠ [] ∧ f.sourceInformation.featureRef ≠ none)) →
      (computeInstallationOrderFull features).1 = features) := by
  refine ⟨?_, ?_, ?_⟩
  · intro features
    exact mutateFeaturesInPlace_length features
  · intro features p hp
    have h := mutateFeaturesInPlace_getD features p hp
    have hfst : (computeInstallationOrderFull features).1 =
        mutateFeaturesInPlace features := rfl
    rw [hfst, h]
    by_cases hl : isLastWithKey features p
    · rw [if_pos hl, rewriteFeature_sourceInformation, rewriteFeature_installsAfter]
      exact ⟨rfl, rfl⟩
    · rw [if_neg hl]
      exact ⟨rfl, rfl⟩
  · intro features hno
    exact mutateFeaturesInPlace_eq_self features hno

theorem claim_C8_mutation_frame_witness :
    (((computeInstallationOrderFull [fsOciLegacy]).1.getD 0 default).sourceInformation =
      (([fsOciLegacy] : List FeatureSet).getD 0 default).sourceInformation ∧
     ((computeInstallationOrderFull [fsOciLegacy]).1.getD 0 default).feature0.installsAfter =
      (([fsOciLegacy] : List FeatureSet).getD 0 default).feature0.installsAfter) ∧
    (computeInstallationOrderFull [fsA]).1 = [fsA] :=
  ⟨claim_C8_mutation_frame.2.1 [fsOciLegacy] 0 (by decide),
   claim_C8_mutation_frame.2.2 [fsA] (by decide)⟩

/-- Counterexample to claim C9 as stated: after one peeling layer the
`before`/`after` sets are no longer inverse views of one edge set — the
layer node is deleted from its successor's `after` set but the stale
`before` entry remains.  For the two-node graph `a installs-after b`,
after processing the layer `[b]`: node `a` (position 1) is still in
`before` of node `b` (position 0), but `b` is no longer in `after` of
`a`. -/
theorem claim_C9_counterexample :
    (1 ∈ beforeAt (processLayer (builtGraph [fsB, fsAafterB]) [0]).1 0) ∧
    (0 ∉ afterAt (processLayer (builtGraph [fsB, fsAafterB]) [0]).1 1) := by
  decide

/-- Claim C9 (amended): at the end of edge discovery the `before`/`after`
sets of the built graph are inverse views of one edge set — `j` is in
`after` of `i` iff `i` is in `before` of `j` — and adding an edge updates
both endpoints atomically.  During layered peeling only the direction
"`j ∈ after i` implies `i ∈ before j`" is preserved: `processLayer` only
shrinks `after` sets and leaves `before` sets unchanged, so the converse
fails once a layer is processed (see the counterexample). -/
theorem claim_C9_edge_inverse :
    (∀ features i j,
      j ∈ afterAt (builtGraph features) i ↔ i ∈ beforeAt (builtGraph features) j) ∧
    (∀ (g : List FeatureNode) (current : List Nat),
      (∀ i j, j ∈ afterAt g i → i ∈ beforeAt g j) →
      ∀ i j, j ∈ afterAt (processLayer g current).1 i →
        i ∈ beforeAt (processLayer g current).1 j) := by
  constructor
  · intro features i j
    exact (builtGraph_inv features).2.2.1 i j
  · intro g current hhalf i j hj
    rw [processLayer_before_eq]
    exact hhalf i j (processLayer_after_subset g current i j hj)

theorem claim_C9_edge_inverse_witness :
    1 ∈ beforeAt (processLayer (builtGraph [fsB, fsAafterB]) []).1 0 :=
  claim_C9_edge_inverse.2 (builtGraph [fsB, fsAafterB]) []
    (fun i j h => (claim_C9_edge_inverse.1 [fsB, fsAafterB] i j).mp h)
    1 0 (by decide)

/-- Claim C10: `_buildDependencyGraph`, despite its inner recursive
self-call, is semantically equivalent to the plain non-recursive loop
over the FIFO worklist: for every oracle, fuel, worklist, accumulator and
trace state, both renderings produce the same fetch trace and the same
result (same accumulated nodes in the same order). -/
theorem claim_C10_recursion_equivalence :
    ∀ (p : BuildParams) (fuel : Nat) (worklist acc : List FNode)
      (trace : List String),
      buildDependencyGraphRec p fuel worklist acc trace =
        buildDependencyGraphLoop p fuel worklist acc trace :=
  buildDependencyGraphRec_eq_loop
